import Mathlib

/-!
# A shallow embedding of `examples/lucene_grammar.py`

This file embeds the pyparsing grammar of `lucene_grammar.py` (pyparsing is the
library of this same repository; the grammar file composes its combinators:
`Literal`, `CaselessKeyword`, `Regex`, `QuotedString`, `Optional`, `Group`,
`operatorPrecedence`, and `parseString(..., parseAll=True)`).

The embedding is a deterministic PEG-style parser over `List Char`, following
pyparsing's semantics for the combinators used by the grammar:

* every terminal skips leading whitespace before matching;
* `|` is `MatchFirst`: ordered choice, the first matching alternative wins,
  with no backtracking into an alternative once it has succeeded;
* `Optional(e)` greedily matches `e` and falls back to the empty match;
* `CaselessKeyword(s)` matches `s` case-insensitively and requires that the
  characters adjacent to the match (before and after) are not keyword
  identifier characters (alphanumerics, `_`, `$`);
* `operatorPrecedence(term, levels)` expands, level by level, to
  `thisExpr = (FollowedBy(...) + Group(...)) | lastExpr` as in pyparsing's
  implementation; for a right-associative unary level this is equivalent to:
  if the operator and then `thisExpr` both match, commit to that parse,
  otherwise parse `lastExpr`; for a left-associative binary level it is
  equivalent to parsing `lastExpr` and then folding `(op lastExpr)*` to the
  left, stopping at the first iteration in which the operator or its operand
  fails (that iteration is rolled back entirely);
* `parseString(s, parseAll=True)` fails with a `ParseException` (the spec's
  `GrammarError`) when non-whitespace input remains after the expression.

Machine floats produced by `float(t[0])` on literals of the form `\d+(\.\d+)?`
are represented exactly as rationals.  Recursion through the grammar's
`Forward` declarations is realized by a fuel parameter; the top-level entry
point supplies fuel that is amply sufficient for its input length (each
recursive descent step consumes at least one character of input).
-/

namespace Lucene

/-! ## Character classes -/

/-- The plain (unescaped) word characters of `valid_word`'s regex
`[a-zA-Z0-9*_+.-]` (line 24). -/
def plainWordChar (c : Char) : Bool :=
  c.isAlpha || c.isDigit || c = '*' || c = '_' || c = '+' || c = '.' || c = '-'

/-- The characters that may follow a backslash inside `valid_word`, from the
regex alternative `\\[!(){}\[\]^"~*?\\:]` (line 24):
`! ( ) { } [ ] ^ " ~ * ? \ :`.  Note that `+` and `-` are *not* in this set. -/
def escWordChar (c : Char) : Bool :=
  c = '!' || c = '(' || c = ')' || c = '{' || c = '}' || c = '[' || c = ']' ||
  c = '^' || c = '"' || c = '~' || c = '*' || c = '?' || c = '\\' || c = ':'

/-- pyparsing's default whitespace characters, skipped before every terminal. -/
def wsChar (c : Char) : Bool :=
  c = ' ' || c = '\t' || c = '\n' || c = '\r'

/-- pyparsing `Keyword.DEFAULT_KEYWORD_CHARS = alphanums + "_$"`: the
characters that may not be adjacent to a keyword match. -/
def identChar (c : Char) : Bool :=
  c.isAlpha || c.isDigit || c = '_' || c = '$'

/-- ASCII case folding used by `CaselessKeyword` matching. -/
def upChar (c : Char) : Char := c.toUpper

/-! ## The query tree

Structured reading of the `ParseResults` the grammar produces.  A `QTerm`
records the named results attached by the `term` rule and its sub-rules:
`field`, `fuzzy`, `proximity`, `boost`, around one of the four body
alternatives `word_expr | string_expr | range_search | Group(LPAR expression
RPAR)`.  The expression levels of `operatorPrecedence` build `QExpr` nodes;
left-associative binary levels fold their flat groups to the left. -/

mutual

inductive QTerm : Type where
  | mk (fld : Option (List Char)) (body : QBody) (fuzzy : Option Rat)
       (proximity : Option Nat) (boost : Option Rat) : QTerm

inductive QBody : Type where
  /-- a `valid_word`, already unescaped by the word parse action -/
  | word (w : List Char) : QBody
  /-- a `QuotedString('"')`, with the quotes stripped -/
  | phrase (s : List Char) : QBody
  /-- `incl_range_search` (`inclusive = true`) or `excl_range_search`;
  the bounds are full terms -/
  | range (inclusive : Bool) (lower upper : QTerm) : QBody
  /-- `Group(LPAR + expression + RPAR)` -/
  | group (e : QExpr) : QBody

inductive QExpr : Type where
  | term (t : QTerm) : QExpr
  | notE (e : QExpr) : QExpr
  | andE (l r : QExpr) : QExpr
  | orE (l r : QExpr) : QExpr
  /-- `required_modifier` (`+`) applied by the first precedence level -/
  | required (e : QExpr) : QExpr
  /-- `prohibit_modifier` (`-`) applied by the first precedence level -/
  | prohibited (e : QExpr) : QExpr

end

def QTerm.fuzzy : QTerm → Option Rat
  | .mk _ _ f _ _ => f

def QTerm.proximity : QTerm → Option Nat
  | .mk _ _ _ p _ => p

def QTerm.body : QTerm → QBody
  | .mk _ b _ _ _ => b

def QTerm.fld : QTerm → Option (List Char)
  | .mk f _ _ _ _ => f

def QTerm.boost : QTerm → Option Rat
  | .mk _ _ _ _ b => b

/-- The parser state: the remaining input together with the character
immediately preceding it (pyparsing keywords inspect `instring[loc-1]`).
At the very start of the input we use `' '`, which models pyparsing's
`loc == 0` case (no adjacent identifier character). -/
structure PState where
  prev : Char
  rest : List Char
deriving Repr, DecidableEq

/-! ## Terminals -/

/-- Skip leading whitespace, tracking the preceding character. -/
def skipWs : Char → List Char → PState
  | p, [] => ⟨p, []⟩
  | p, c :: cs => if wsChar c then skipWs c cs else ⟨p, c :: cs⟩

def skipWsSt (st : PState) : PState :=
  skipWs st.prev st.rest

/-- `Literal(l)`: skip whitespace, then match the characters of `l` exactly. -/
def matchLit (l : List Char) (st : PState) : Option PState :=
  go l (skipWsSt st)
where
  go : List Char → PState → Option PState
    | [], st => some st
    | _ :: _, ⟨_, []⟩ => none
    | c :: cs, ⟨_, d :: ds⟩ => if c = d then go cs ⟨d, ds⟩ else none

/-- `CaselessKeyword(kw)`: skip whitespace; the preceding character must not
be a keyword identifier character; the characters of `kw` match
case-insensitively; the following character (if any) must not be a keyword
identifier character. -/
def matchCaselessKw (kw : List Char) (st : PState) : Option PState :=
  let st' := skipWsSt st
  if identChar st'.prev then none else go kw st'
where
  go : List Char → PState → Option PState
    | [], ⟨p, []⟩ => some ⟨p, []⟩
    | [], ⟨p, d :: ds⟩ => if identChar d then none else some ⟨p, d :: ds⟩
    | _ :: _, ⟨_, []⟩ => none
    | c :: cs, ⟨_, d :: ds⟩ => if upChar c = upChar d then go cs ⟨d, ds⟩ else none

/-- Maximal-munch scan of `valid_word`'s regex
`([a-zA-Z0-9*_+.-]|\\[!(){}\[\]^"~*?\\:])+` (line 24): returns the matched
token (possibly empty, meaning no match) and the rest. -/
def scanWord : List Char → List Char × List Char
  | [] => ([], [])
  | c :: cs =>
    if plainWordChar c then
      let (t, r) := scanWord cs
      (c :: t, r)
    else if c = '\\' then
      match cs with
      | [] => ([], c :: cs)
      | d :: ds =>
        if escWordChar d then
          let (t, r) := scanWord ds
          (c :: d :: t, r)
        else ([], c :: cs)
    else ([], c :: cs)

/-- First step of the word parse action (line 26):
`.replace('\\\\', chr(127))` — replace each leftmost non-overlapping pair of
backslashes by the placeholder character `chr 127`. -/
def replPairs : List Char → List Char
  | [] => []
  | [c] => [c]
  | c :: d :: rest =>
    if c = '\\' ∧ d = '\\' then Char.ofNat 127 :: replPairs rest
    else c :: replPairs (d :: rest)

/-- The word parse action (lines 25-27):
`t[0].replace('\\\\',chr(127)).replace('\\','').replace(chr(127),'\\')` —
a single-pass unescape: `\\` pairs become a placeholder, remaining
backslashes are deleted, and the placeholder is restored to a backslash. -/
def unescapeWord (t : List Char) : List Char :=
  ((replPairs t).filter (fun c => c ≠ '\\')).map
    (fun c => if c = Char.ofNat 127 then '\\' else c)

/-- `valid_word` (lines 24-27): skip whitespace, scan the regex with maximal
munch, fail on an empty match, and apply the unescaping parse action. -/
def pWord (st : PState) : Option (List Char × PState) :=
  match scanWord (skipWsSt st).rest with
  | ([], _) => none
  | (t, r) => some (unescapeWord t, ⟨t.getLastD ' ', r⟩)

/-- `string = QuotedString('"')` (line 29): a double quote, then characters
other than the quote and line breaks, then the closing quote; the result is
unquoted. -/
def pPhrase (st : PState) : Option (List Char × PState) :=
  let st' := skipWsSt st
  match st'.rest with
  | '"' :: cs =>
    let content := cs.takeWhile (fun c => c ≠ '"' && c ≠ '\n' && c ≠ '\r')
    match cs.dropWhile (fun c => c ≠ '"' && c ≠ '\n' && c ≠ '\r') with
    | '"' :: ds => some (content, ⟨'"', ds⟩)
    | _ => none
  | _ => none

def digitsToNat (l : List Char) : Nat :=
  l.foldl (fun a c => 10 * a + (c.toNat - '0'.toNat)) 0

/-- `integer = Regex(r"\d+")` with the `int` parse action (line 33): a
maximal run of digits. -/
def pInteger (st : PState) : Option (Nat × PState) :=
  match (skipWsSt st).rest.takeWhile Char.isDigit with
  | [] => none
  | ds => some (digitsToNat ds, ⟨ds.getLastD ' ', (skipWsSt st).rest.dropWhile Char.isDigit⟩)

/-- `number = Regex(r'\d+(\.\d+)?')` with the `float` parse action (line 35);
the value `ds.fs` is represented exactly as the rational
`(ds * 10^|fs| + fs) / 10^|fs|`. -/
def pNumber (st : PState) : Option (Rat × PState) :=
  match (skipWsSt st).rest.takeWhile Char.isDigit with
  | [] => none
  | ds =>
    match (skipWsSt st).rest.dropWhile Char.isDigit with
    | '.' :: r2 =>
      match r2.takeWhile Char.isDigit with
      | [] => some (mkRat (digitsToNat ds : Int) 1,
                    ⟨ds.getLastD ' ', (skipWsSt st).rest.dropWhile Char.isDigit⟩)
      | fs => some (mkRat (digitsToNat ds * 10 ^ fs.length + digitsToNat fs : Int) (10 ^ fs.length),
                    ⟨fs.getLastD ' ', r2.dropWhile Char.isDigit⟩)
    | _ => some (mkRat (digitsToNat ds : Int) 1,
                 ⟨ds.getLastD ' ', (skipWsSt st).rest.dropWhile Char.isDigit⟩)

/-- `word_expr = Group(valid_word + fuzzy_modifier) | valid_word` (line 46)
with `fuzzy_modifier = TILDE + Optional(number, default=0.5)` (line 36).
Since `valid_word` is deterministic, trying `Group(valid_word +
fuzzy_modifier)` first and falling back to the bare `valid_word` is the same
as parsing the word once and then optionally its fuzzy modifier. -/
def pWordExpr (st : PState) : Option ((QBody × Option Rat × Option Nat) × PState) :=
  match pWord st with
  | none => none
  | some (w, st1) =>
    match matchLit ['~'] st1 with
    | some st2 =>
      match pNumber st2 with
      | some (q, st3) => some ((.word w, some q, none), st3)
      | none => some ((.word w, some (mkRat 1 2), none), st2)
    | none => some ((.word w, none, none), st1)

/-- `string_expr = Group(string + proximity_modifier) | string` (line 45) with
`proximity_modifier = Group(TILDE + integer("proximity"))` (line 34).  The
proximity integer is mandatory after the tilde; otherwise the grouped
alternative fails and the bare string (without the tilde) is used. -/
def pStringExpr (st : PState) : Option ((QBody × Option Rat × Option Nat) × PState) :=
  match pPhrase st with
  | none => none
  | some (s, st1) =>
    match matchLit ['~'] st1 with
    | some st2 =>
      match pInteger st2 with
      | some (k, st3) => some ((.phrase s, none, some k), st3)
      | none => some ((.phrase s, none, none), st1)
    | none => some ((.phrase s, none, none), st1)

/-- `boost = (CARAT + number("boost"))` (line 43), used as `Optional(boost)`:
both the carat and the number must be present. -/
def pBoost (st : PState) : Option (Rat × PState) :=
  match matchLit ['^'] st with
  | none => none
  | some st1 =>
    match pNumber st1 with
    | none => none
    | some (q, st2) => some (q, st2)

/-! ## The `term` rule and the `operatorPrecedence` expansion

`expression << operatorPrecedence(term, [...])` (lines 52-58) with levels,
from tightest to loosest:
1. `required_modifier | prohibit_modifier`, unary, right-associative;
2. `(not_ | '!')`, unary, right-associative;
3. `(and_ | '&&')`, binary, left-associative;
4. `Optional(or_ | '||')`, binary, left-associative (the `Optional` makes the
   bare juxtaposition of two operands parse as an `OR`).

pyparsing expands each level to `thisExpr = (FollowedBy(...) + Group(...)) |
lastExpr`, with `lastExpr` of the innermost level being
`term | Suppress('(') + expression + Suppress(')')`.  The recursion through
the `Forward` declarations is realized with a fuel parameter; every function
of the mutual block consumes one unit of fuel per call. -/

/-- `(and_ | '&&')` with its parse action, line 56. -/
def pAndOp (st : PState) : Option PState :=
  match matchCaselessKw ['A', 'N', 'D'] st with
  | some st' => some st'
  | none => matchLit ['&', '&'] st

/-- `(or_ | '||')`, the operator inside the `Optional` of line 57. -/
def pOrOp (st : PState) : Option PState :=
  match matchCaselessKw ['O', 'R'] st with
  | some st' => some st'
  | none => matchLit ['|', '|'] st

/-- `(not_ | '!')` with its parse action, line 55. -/
def pNotOp (st : PState) : Option PState :=
  match matchCaselessKw ['N', 'O', 'T'] st with
  | some st' => some st'
  | none => matchLit ['!'] st

/-- `required_modifier | prohibit_modifier` (lines 31-32, 54); the returned
flag is `true` for `+` (required). -/
def pPlusMinusOp (st : PState) : Option (Bool × PState) :=
  match matchLit ['+'] st with
  | some st' => some (true, st')
  | none =>
    match matchLit ['-'] st with
    | some st' => some (false, st')
    | none => none

/-- The inner `field_name("field") + COLON` of `term`'s leading `Optional`
(line 47); `field_name = valid_word.copy()` (line 39) carries the same
unescaping parse action as `valid_word`. -/
def pFieldColon (st : PState) : Option (List Char × PState) :=
  match pWord st with
  | some (w, stA) =>
    match matchLit [':'] stA with
    | some stB => some (w, stB)
    | none => none
  | none => none

/-- `Optional(boost)` around a parsed body: attach the boost when `CARAT +
number` matches, keep the state unchanged otherwise. -/
def finishTerm (fld : Option (List Char)) (tri : QBody × Option Rat × Option Nat)
    (st : PState) : QTerm × PState :=
  match pBoost st with
  | some (q, st') => (⟨fld, tri.1, tri.2.1, tri.2.2, some q⟩, st')
  | none => (⟨fld, tri.1, tri.2.1, tri.2.2, none⟩, st)

mutual

/-- `term` (lines 47-50): `Optional(field_name("field") + COLON)`, then the
first of `word_expr | string_expr | range_search | Group(LPAR + expression +
RPAR)` that matches, then `Optional(boost)`.  The parse action of line 50
only reshapes the token list and is represented by the `QTerm` structure. -/
def pTerm : Nat → PState → Option (QTerm × PState)
  | 0, _ => none
  | n + 1, st =>
    match pFieldColon st with
    | some (w, stB) => pTermAfterField n (some w) stB
    | none => pTermAfterField n none st
  termination_by structural n => n

/-- The body alternation and trailing boost of `term`, after the optional
field prefix has been resolved (line 48: `word_expr | string_expr |
range_search | Group(LPAR + expression + RPAR)`, in `MatchFirst` order). -/
def pTermAfterField : Nat → Option (List Char) → PState → Option (QTerm × PState)
  | 0, _, _ => none
  | n + 1, fld, st1 =>
    match pWordExpr st1 with
    | some (tri, st2) => some (finishTerm fld tri st2)
    | none =>
      match pStringExpr st1 with
      | some (tri, st2) => some (finishTerm fld tri st2)
      | none =>
        match pRangeSearch n st1 with
        | some (tri, st2) => some (finishTerm fld tri st2)
        | none =>
          match pGroupBody n st1 with
          | some (tri, st2) => some (finishTerm fld tri st2)
          | none => none
  termination_by structural n => n

/-- `range_search = incl_range_search("incl_range") | excl_range_search`
(lines 40-42): `Group(LBRACK + term("lower") + to_ + term("upper") + RBRACK)`
or the same between braces. -/
def pRangeSearch : Nat → PState → Option ((QBody × Option Rat × Option Nat) × PState)
  | 0, _ => none
  | n + 1, st =>
    match pRangeWith ['['] [']'] true n st with
    | some r => some r
    | none => pRangeWith ['{'] ['}'] false n st
  termination_by structural n => n

def pRangeWith (lb rb : List Char) (incl : Bool) :
    Nat → PState → Option ((QBody × Option Rat × Option Nat) × PState)
  | 0, _ => none
  | n + 1, st =>
    match matchLit lb st with
    | none => none
    | some st1 =>
      match pTerm n st1 with
      | none => none
      | some (lo, st2) =>
        match matchCaselessKw ['T', 'O'] st2 with
        | none => none
        | some st3 =>
          match pTerm n st3 with
          | none => none
          | some (hi, st4) =>
            match matchLit rb st4 with
            | none => none
            | some st5 => some ((.range incl lo hi, none, none), st5)
  termination_by structural n => n

/-- `Group(LPAR + expression + RPAR)`, the fourth body alternative of `term`
(line 48). -/
def pGroupBody : Nat → PState → Option ((QBody × Option Rat × Option Nat) × PState)
  | 0, _ => none
  | n + 1, st =>
    match matchLit ['('] st with
    | none => none
    | some st1 =>
      match pOrLevel n st1 with
      | none => none
      | some (e, st2) =>
        match matchLit [')'] st2 with
        | none => none
        | some st3 => some ((.group e, none, none), st3)
  termination_by structural n => n

/-- The base operand of `operatorPrecedence`:
`lastExpr = baseExpr | (Suppress('(') + ret + Suppress(')'))`.  The second
alternative is part of pyparsing's expansion; it is unreachable here because
`term` itself already contains a parenthesized-expression alternative that
fails exactly when this one would, but it is kept for fidelity. -/
def pTermOrParen : Nat → PState → Option (QExpr × PState)
  | 0, _ => none
  | n + 1, st =>
    match pTerm n st with
    | some (t, st') => some (.term t, st')
    | none =>
      match matchLit ['('] st with
      | none => none
      | some st1 =>
        match pOrLevel n st1 with
        | none => none
        | some (e, st2) =>
          match matchLit [')'] st2 with
          | none => none
          | some st3 => some (e, st3)
  termination_by structural n => n

/-- Level 1, `(required_modifier | prohibit_modifier, 1, opAssoc.RIGHT)`:
pyparsing builds `FollowedBy(op + thisExpr) + Group(Optional(op) + thisExpr)
| lastExpr`; equivalently, commit to `op thisExpr` when both match, else
parse the operand alone. -/
def pPlusMinusLevel : Nat → PState → Option (QExpr × PState)
  | 0, _ => none
  | n + 1, st =>
    match pPlusMinusOp st with
    | some (isReq, st') =>
      match pPlusMinusLevel n st' with
      | some (e, st'') => some (if isReq then .required e else .prohibited e, st'')
      | none => pTermOrParen n st
    | none => pTermOrParen n st
  termination_by structural n => n

/-- Level 2, `((not_ | '!'), 1, opAssoc.RIGHT)`, same expansion as level 1. -/
def pNotLevel : Nat → PState → Option (QExpr × PState)
  | 0, _ => none
  | n + 1, st =>
    match pNotOp st with
    | some st' =>
      match pNotLevel n st' with
      | some (e, st'') => some (.notE e, st'')
      | none => pPlusMinusLevel n st
    | none => pPlusMinusLevel n st
  termination_by structural n => n

/-- Level 3, `((and_ | '&&'), 2, opAssoc.LEFT)`: parse one operand and fold
`(op operand)*` to the left, rolling back an iteration whose operator or
operand fails. -/
def pAndLevel : Nat → PState → Option (QExpr × PState)
  | 0, _ => none
  | n + 1, st =>
    match pNotLevel n st with
    | none => none
    | some (e, st') => pAndLoop n e st'
  termination_by structural n => n

def pAndLoop : Nat → QExpr → PState → Option (QExpr × PState)
  | 0, e, st => some (e, st)
  | n + 1, e, st =>
    match pAndOp st with
    | none => some (e, st)
    | some st' =>
      match pNotLevel n st' with
      | none => some (e, st)
      | some (e2, st'') => pAndLoop n (.andE e e2) st''
  termination_by structural n => n

/-- Level 4, `(Optional(or_ | '||'), 2, opAssoc.LEFT)`: the operator always
matches (possibly empty, in which case its parse action still injects the
`"OR"` tag — this is how bare adjacency joins under `OR`). -/
def pOrLevel : Nat → PState → Option (QExpr × PState)
  | 0, _ => none
  | n + 1, st =>
    match pAndLevel n st with
    | none => none
    | some (e, st') => pOrLoop n e st'
  termination_by structural n => n

def pOrLoop : Nat → QExpr → PState → Option (QExpr × PState)
  | 0, e, st => some (e, st)
  | n + 1, e, st =>
    let st' := match pOrOp st with
      | some s => s
      | none => st
    match pAndLevel n st' with
    | none => some (e, st)
    | some (e2, st'') => pOrLoop n (.orE e e2) st''
  termination_by structural n => n

end

/-- `expression` (lines 22, 52): the outermost precedence level. -/
def pExpression (n : Nat) (st : PState) : Option (QExpr × PState) :=
  pOrLevel n st

/-- The structured parse error of the spec's `parse` contract: pyparsing's
`ParseException` carrying the 0-based offset of the failure.  Inner grammar
failures are reported at offset 0; the `parseAll=True` trailing-input failure
is reported at the offset of the first unconsumed non-whitespace character,
as pyparsing does. -/
structure GrammarError where
  offset : Nat
deriving Repr, DecidableEq

/-- Fuel that is always sufficient: each unit of nesting or iteration of the
grammar consumes at least one input character, and a descent through all
precedence levels to a term costs a fixed number of calls. -/
def fuelFor (s : String) : Nat :=
  16 * s.length + 64

/-- `expression.parseString(t, parseAll=True)` (line 323): parse an
`expression` from the start (leading whitespace is skipped by the first
terminal) and require that only whitespace remains. -/
def parse (s : String) : Except GrammarError QExpr :=
  match pExpression (fuelFor s) ⟨' ', s.data⟩ with
  | none => .error ⟨0⟩
  | some (e, st) =>
    let st' := skipWsSt st
    match st'.rest with
    | [] => .ok e
    | _ => .error ⟨s.length - st'.rest.length⟩

/-! ## Helper constructors for writing down expected parse trees -/

/-- A bare word term (no field, no modifier, no boost). -/
def wordT (s : String) : QTerm := ⟨none, .word s.data, none, none, none⟩

def wordE (s : String) : QExpr := .term (wordT s)

/-- A word term carrying a fuzzy modifier. -/
def fuzzyE (s : String) (q : Rat) : QExpr := .term ⟨none, .word s.data, some q, none, none⟩

/-- A phrase term carrying a proximity modifier. -/
def proxE (s : String) (k : Nat) : QExpr := .term ⟨none, .phrase s.data, none, some k, none⟩

end Lucene

namespace Lucene

set_option maxRecDepth 16000

/-! ## The fuzzy/proximity invariant (claims C3 and C8)

The grammar attaches the named result `fuzzy` only inside
`word_expr = Group(valid_word + fuzzy_modifier) | valid_word` and the named
result `proximity` only inside
`string_expr = Group(string + proximity_modifier) | string`, so in every
successfully parsed query a fuzzy value sits on a word body, a proximity
value sits on a phrase body, no term carries both, and every fuzzy value is
a nonnegative rational (it is either a parsed `\d+(\.\d+)?` literal or the
default `0.5`).  `invE` states this for every term of a tree; the
`parse_inv` lemma establishes it for every parse result by induction on the
parser's fuel. -/

def bodyIsWord : QBody → Bool
  | .word _ => true
  | _ => false

def bodyIsPhrase : QBody → Bool
  | .phrase _ => true
  | _ => false

/-- The per-term conditions on a body alternative together with the fuzzy
and proximity results it produced. -/
def triInv : QBody × Option Rat × Option Nat → Bool
  | (b, fz, px) =>
    (match px with | some _ => bodyIsPhrase b | none => true) &&
    (match fz with | some q => bodyIsWord b && decide (0 ≤ q.num) | none => true)

mutual

/-- Every term of the tree satisfies the fuzzy/proximity conditions. -/
def invT : QTerm → Bool
  | .mk _ b fz px _ => triInv (b, fz, px) && invB b

def invB : QBody → Bool
  | .word _ => true
  | .phrase _ => true
  | .range _ lo hi => invT lo && invT hi
  | .group e => invE e

def invE : QExpr → Bool
  | .term t => invT t
  | .notE e => invE e
  | .andE l r => invE l && invE r
  | .orE l r => invE l && invE r
  | .required e => invE e
  | .prohibited e => invE e

end

/-! ## Word tokens, keywords and escaping

`wordUnits` recognises the token language of `valid_word`'s regex: a
sequence of units, each either a plain word character or a backslash followed
by a character of the escape class.  `kwAt` is the static counterpart of
`matchCaselessKw`'s matching at a given suffix of the input: a caseless match
of the keyword followed by a non-identifier boundary.  `escWord` is the
escaped encoding of a literal word under the grammar's escape class (each
escapable character preceded by a backslash); `escWordSpec` is the same
encoding under the *spec's* claimed reserved set, which additionally
escapes `+` and `-`. -/

def wordUnits : List Char → Bool
  | [] => true
  | c :: cs =>
    if plainWordChar c then wordUnits cs
    else if c = '\\' then
      match cs with
      | [] => false
      | d :: ds => escWordChar d && wordUnits ds
    else false

/-- A well-formed, nonempty `valid_word` token. -/
def validTok (t : List Char) : Bool := !t.isEmpty && wordUnits t

/-- A character at which the maximal-munch word scan stops and which can
neither extend a keyword match nor serve as a keyword boundary character. -/
def stopChar (c : Char) : Bool := !plainWordChar c && c ≠ '\\' && !identChar c

/-- The continuation `r` begins (if at all) at a `stopChar`. -/
def stopsWord : List Char → Bool
  | [] => true
  | c :: _ => stopChar c

/-- After a word token, the continuation (whitespace skipped) must not start
with the field colon, the fuzzy tilde or the boost carat for the token to
stand as a bare word term. -/
def sepOk (r : List Char) : Bool :=
  match r.dropWhile wsChar with
  | [] => true
  | c :: _ => c ≠ ':' && c ≠ '~' && c ≠ '^'

def caselessPrefix : List Char → List Char → Bool
  | [], _ => true
  | _ :: _, [] => false
  | c :: cs, d :: ds => (upChar c = upChar d) && caselessPrefix cs ds

def boundOk : List Char → Bool
  | [] => true
  | d :: _ => !identChar d

/-- The keyword `kw` matches caselessly at the start of `l` with a valid
right boundary (the left boundary is the caller's concern). -/
def kwAt (kw l : List Char) : Bool := caselessPrefix kw l && boundOk (l.drop kw.length)

def notKW : List Char := ['N', 'O', 'T']
def orKW : List Char := ['O', 'R']
def andKW : List Char := ['A', 'N', 'D']

/-- The escaped encoding of a literal word under the grammar's escape class:
each character of `! ( ) { } [ ] ^ " ~ * ? \ :` is preceded by a backslash
(in particular `\` is written `\\`); other characters stand for themselves. -/
def escWord : List Char → List Char
  | [] => []
  | c :: cs => if escWordChar c then '\\' :: c :: escWord cs else c :: escWord cs

/-- The escaped encoding under the reserved set claimed by the spec, which
additionally escapes `+` and `-`. -/
def escWordSpec : List Char → List Char
  | [] => []
  | c :: cs =>
    if escWordChar c || c = '+' || c = '-' then '\\' :: c :: escWordSpec cs
    else c :: escWordSpec cs

/-- All characters are expressible in a literal word: plain or escapable. -/
def wordAlpha (w : List Char) : Bool := w.all (fun c => plainWordChar c || escWordChar c)


/-- `pNumber` only produces nonnegative rationals. -/
theorem pNumber_nonneg (st : PState) (q : Rat) (st' : PState)
    (h : pNumber st = some (q, st')) : 0 ≤ q.num := by
  unfold pNumber at h
  split at h
  · exact absurd h (by simp)
  · split at h
    · split at h
      · simp only [Option.some.injEq, Prod.mk.injEq] at h
        obtain ⟨rfl, -⟩ := h
        exact Rat.num_nonneg.2 (Rat.mkRat_nonneg (by positivity) _)
      · simp only [Option.some.injEq, Prod.mk.injEq] at h
        obtain ⟨rfl, -⟩ := h
        exact Rat.num_nonneg.2 (Rat.mkRat_nonneg (by positivity) _)
    · simp only [Option.some.injEq, Prod.mk.injEq] at h
      obtain ⟨rfl, -⟩ := h
      exact Rat.num_nonneg.2 (Rat.mkRat_nonneg (by positivity) _)

/-- `word_expr` produces a word body, no proximity, and a nonnegative fuzzy
value when one is present. -/
theorem pWordExpr_triInv (st : PState) (tri : QBody × Option Rat × Option Nat)
    (st' : PState) (h : pWordExpr st = some (tri, st')) :
    triInv tri = true ∧ invB tri.1 = true := by
  unfold pWordExpr at h
  split at h
  · exact absurd h (by simp)
  · split at h
    · split at h
      · simp only [Option.some.injEq, Prod.mk.injEq] at h
        obtain ⟨rfl, -⟩ := h
        rename_i w st1 st2 q st3 hq
        refine ⟨?_, by rfl⟩
        simp [triInv, bodyIsWord, pNumber_nonneg _ _ _ hq]
      · simp only [Option.some.injEq, Prod.mk.injEq] at h
        obtain ⟨rfl, -⟩ := h
        refine ⟨?_, by rfl⟩
        simp [triInv, bodyIsWord]
    · simp only [Option.some.injEq, Prod.mk.injEq] at h
      obtain ⟨rfl, -⟩ := h
      refine ⟨?_, by rfl⟩
      simp [triInv, bodyIsWord]

/-- `string_expr` produces a phrase body and no fuzzy value. -/
theorem pStringExpr_triInv (st : PState) (tri : QBody × Option Rat × Option Nat)
    (st' : PState) (h : pStringExpr st = some (tri, st')) :
    triInv tri = true ∧ invB tri.1 = true := by
  unfold pStringExpr at h
  split at h
  · exact absurd h (by simp)
  · split at h
    · split at h
      · simp only [Option.some.injEq, Prod.mk.injEq] at h
        obtain ⟨rfl, -⟩ := h
        exact ⟨by simp [triInv, bodyIsPhrase], by rfl⟩
      · simp only [Option.some.injEq, Prod.mk.injEq] at h
        obtain ⟨rfl, -⟩ := h
        exact ⟨by simp [triInv, bodyIsPhrase], by rfl⟩
    · simp only [Option.some.injEq, Prod.mk.injEq] at h
      obtain ⟨rfl, -⟩ := h
      exact ⟨by simp [triInv, bodyIsPhrase], by rfl⟩

/-- Attaching an optional boost to a body satisfying the per-term conditions
yields a term satisfying the invariant. -/
theorem finishTerm_invT (fld : Option (List Char)) (tri : QBody × Option Rat × Option Nat)
    (st : PState) (h1 : triInv tri = true) (h2 : invB tri.1 = true) :
    invT (finishTerm fld tri st).1 = true := by
  obtain ⟨b, fz, px⟩ := tri
  unfold finishTerm
  split <;> simpa [invT] using ⟨h1, h2⟩

/-- Every result of any parser of the mutual block satisfies the
fuzzy/proximity invariant, by induction on the fuel. -/
theorem inv_all : ∀ n : Nat,
    (∀ st t st', pTerm n st = some (t, st') → invT t = true) ∧
    (∀ fld st t st', pTermAfterField n fld st = some (t, st') → invT t = true) ∧
    (∀ st tri st', pRangeSearch n st = some (tri, st') → triInv tri = true ∧ invB tri.1 = true) ∧
    (∀ lb rb incl st tri st',
      pRangeWith lb rb incl n st = some (tri, st') → triInv tri = true ∧ invB tri.1 = true) ∧
    (∀ st tri st', pGroupBody n st = some (tri, st') → triInv tri = true ∧ invB tri.1 = true) ∧
    (∀ st e st', pTermOrParen n st = some (e, st') → invE e = true) ∧
    (∀ st e st', pPlusMinusLevel n st = some (e, st') → invE e = true) ∧
    (∀ st e st', pNotLevel n st = some (e, st') → invE e = true) ∧
    (∀ st e st', pAndLevel n st = some (e, st') → invE e = true) ∧
    (∀ acc st e st', invE acc = true → pAndLoop n acc st = some (e, st') → invE e = true) ∧
    (∀ st e st', pOrLevel n st = some (e, st') → invE e = true) ∧
    (∀ acc st e st', invE acc = true → pOrLoop n acc st = some (e, st') → invE e = true) := by
  intro n
  induction n with
  | zero =>
    refine ⟨?_, ?_, ?_, ?_, ?_, ?_, ?_, ?_, ?_, ?_, ?_, ?_⟩ <;> intros <;>
      simp_all [pTerm, pTermAfterField, pRangeSearch, pRangeWith, pGroupBody,
        pTermOrParen, pPlusMinusLevel, pNotLevel, pAndLevel, pAndLoop, pOrLevel, pOrLoop]
  | succ n ih =>
    obtain ⟨ihT, ihTF, ihRS, ihRW, ihGB, ihTP, ihPM, ihNot, ihAnd, ihAndL, ihOr, ihOrL⟩ := ih
    refine ⟨?_, ?_, ?_, ?_, ?_, ?_, ?_, ?_, ?_, ?_, ?_, ?_⟩
    -- pTerm
    · intro st t st' h
      simp only [pTerm] at h
      split at h
      · exact ihTF _ _ _ _ h
      · exact ihTF _ _ _ _ h
    -- pTermAfterField
    · intro fld st t st' h
      simp only [pTermAfterField] at h
      split at h
      · rename_i tri st2 hwe
        obtain ⟨h1, h2⟩ := pWordExpr_triInv _ _ _ hwe
        injection h with h
        rw [show t = (finishTerm fld tri st2).1 from congrArg Prod.fst h.symm]
        exact finishTerm_invT _ _ _ h1 h2
      · split at h
        · rename_i tri st2 hse
          obtain ⟨h1, h2⟩ := pStringExpr_triInv _ _ _ hse
          injection h with h
          rw [show t = (finishTerm fld tri st2).1 from congrArg Prod.fst h.symm]
          exact finishTerm_invT _ _ _ h1 h2
        · split at h
          · rename_i tri st2 hrs
            obtain ⟨h1, h2⟩ := ihRS _ _ _ hrs
            injection h with h
            rw [show t = (finishTerm fld tri st2).1 from congrArg Prod.fst h.symm]
            exact finishTerm_invT _ _ _ h1 h2
          · split at h
            · rename_i tri st2 hgb
              obtain ⟨h1, h2⟩ := ihGB _ _ _ hgb
              injection h with h
              rw [show t = (finishTerm fld tri st2).1 from congrArg Prod.fst h.symm]
              exact finishTerm_invT _ _ _ h1 h2
            · exact absurd h (by simp)
    -- pRangeSearch
    · intro st tri st' h
      simp only [pRangeSearch] at h
      split at h
      · rename_i r hr
        injection h with h
        subst h
        exact ihRW _ _ _ _ _ _ hr
      · exact ihRW _ _ _ _ _ _ h
    -- pRangeWith
    · intro lb rb incl st tri st' h
      simp only [pRangeWith] at h
      split at h
      · exact absurd h (by simp)
      · rename_i st1 hlb
        split at h
        · exact absurd h (by simp)
        · rename_i lo st2 hlo
          split at h
          · exact absurd h (by simp)
          · rename_i st3 hto
            split at h
            · exact absurd h (by simp)
            · rename_i hi st4 hhi
              split at h
              · exact absurd h (by simp)
              · rename_i st5 hrb
                simp only [Option.some.injEq, Prod.mk.injEq] at h
                obtain ⟨rfl, -⟩ := h
                refine ⟨by simp [triInv], ?_⟩
                simp [invB, ihT _ _ _ hlo, ihT _ _ _ hhi]
    -- pGroupBody
    · intro st tri st' h
      simp only [pGroupBody] at h
      split at h
      · exact absurd h (by simp)
      · split at h
        · exact absurd h (by simp)
        · rename_i st1 e st2 hor
          split at h
          · exact absurd h (by simp)
          · simp only [Option.some.injEq, Prod.mk.injEq] at h
            obtain ⟨rfl, -⟩ := h
            exact ⟨by simp [triInv], by simpa [invB] using ihOr _ _ _ hor⟩
    -- pTermOrParen
    · intro st e st' h
      simp only [pTermOrParen] at h
      split at h
      · rename_i t st1 ht
        simp only [Option.some.injEq, Prod.mk.injEq] at h
        obtain ⟨rfl, -⟩ := h
        simpa [invE] using ihT _ _ _ ht
      · split at h
        · exact absurd h (by simp)
        · split at h
          · exact absurd h (by simp)
          · rename_i st1 e2 st2 hor
            split at h
            · exact absurd h (by simp)
            · simp only [Option.some.injEq, Prod.mk.injEq] at h
              obtain ⟨rfl, -⟩ := h
              exact ihOr _ _ _ hor
    -- pPlusMinusLevel
    · intro st e st' h
      simp only [pPlusMinusLevel] at h
      split at h
      · rename_i isReq st1 hop
        split at h
        · rename_i e1 st2 hrec
          simp only [Option.some.injEq, Prod.mk.injEq] at h
          obtain ⟨rfl, -⟩ := h
          have := ihPM _ _ _ hrec
          cases isReq <;> simpa [invE] using this
        · exact ihTP _ _ _ h
      · exact ihTP _ _ _ h
    -- pNotLevel
    · intro st e st' h
      simp only [pNotLevel] at h
      split at h
      · split at h
        · rename_i st1 e1 st2 hrec
          simp only [Option.some.injEq, Prod.mk.injEq] at h
          obtain ⟨rfl, -⟩ := h
          simpa [invE] using ihNot _ _ _ hrec
        · exact ihPM _ _ _ h
      · exact ihPM _ _ _ h
    -- pAndLevel
    · intro st e st' h
      simp only [pAndLevel] at h
      split at h
      · exact absurd h (by simp)
      · rename_i e1 st1 hnot
        exact ihAndL _ _ _ _ (ihNot _ _ _ hnot) h
    -- pAndLoop
    · intro acc st e st' hacc h
      simp only [pAndLoop] at h
      split at h
      · simp only [Option.some.injEq, Prod.mk.injEq] at h
        obtain ⟨rfl, -⟩ := h
        exact hacc
      · split at h
        · simp only [Option.some.injEq, Prod.mk.injEq] at h
          obtain ⟨rfl, -⟩ := h
          exact hacc
        · rename_i st1 e2 st2 hnot
          exact ihAndL _ _ _ _ (by simp [invE, hacc, ihNot _ _ _ hnot]) h
    -- pOrLevel
    · intro st e st' h
      simp only [pOrLevel] at h
      split at h
      · exact absurd h (by simp)
      · rename_i e1 st1 hand
        exact ihOrL _ _ _ _ (ihAnd _ _ _ hand) h
    -- pOrLoop
    · intro acc st e st' hacc h
      simp only [pOrLoop] at h
      split at h
      · simp only [Option.some.injEq, Prod.mk.injEq] at h
        obtain ⟨rfl, -⟩ := h
        exact hacc
      · rename_i e2 st2 hand
        exact ihOrL _ _ _ _ (by simp [invE, hacc, ihAnd _ _ _ hand]) h

/-- Every successful parse satisfies the fuzzy/proximity invariant. -/
theorem parse_inv (s : String) (e : QExpr) (h : parse s = .ok e) : invE e = true := by
  unfold parse at h
  split at h
  · exact absurd h (by simp)
  · rename_i e1 st hexp
    cases hr : (skipWsSt st).rest with
    | nil =>
      simp only [parse, hr] at h
      simp [hr] at h
      subst h
      exact (inv_all (fuelFor s)).2.2.2.2.2.2.2.2.2.2.1 _ _ _ hexp
    | cons c cs => simp [hr] at h

/-! ## Symbolic execution of the parser on word tokens

These lemmas compute the parser's behaviour on inputs of the shape
`token ++ continuation`, for an arbitrary well-formed `valid_word` token.
They drive the universal claims about escaping (C5, C7) and about the
implicit adjacency operator (C2). -/

theorem skipWs_rest (p : Char) (l : List Char) :
    (skipWs p l).rest = l.dropWhile wsChar := by
  induction l generalizing p with
  | nil => rfl
  | cons c cs ih =>
    by_cases h : wsChar c <;> simp [skipWs, List.dropWhile, h, ih]

/-- One-step unfolding of `wordUnits` on a cons cell. -/
theorem wordUnits_cons (c : Char) (cs : List Char) :
    wordUnits (c :: cs) =
      (if plainWordChar c then wordUnits cs
       else if c = '\\' then
         match cs with
         | [] => false
         | d :: ds => escWordChar d && wordUnits ds
       else false) := by
  cases cs with
  | nil =>
    by_cases hp : plainWordChar c = true <;> by_cases hb : c = '\\' <;>
      simp [wordUnits, hp, hb]
  | cons d ds =>
    by_cases hp : plainWordChar c = true <;> by_cases hb : c = '\\' <;>
      simp [wordUnits, hp, hb]

/-- One-step unfolding of `scanWord` on a cons cell. -/
theorem scanWord_cons (c : Char) (cs : List Char) :
    scanWord (c :: cs) =
      (if plainWordChar c then
        ((scanWord cs).1.cons c, (scanWord cs).2)
       else if c = '\\' then
         match cs with
         | [] => ([], c :: cs)
         | d :: ds =>
           if escWordChar d then ((scanWord ds).1.cons d |>.cons c, (scanWord ds).2)
           else ([], c :: cs)
       else ([], c :: cs)) := by
  cases cs with
  | nil =>
    by_cases hp : plainWordChar c = true <;> by_cases hb : c = '\\' <;>
      simp [scanWord, hp, hb]
  | cons d ds =>
    by_cases hp : plainWordChar c = true <;> by_cases hb : c = '\\' <;>
      by_cases hd : escWordChar d = true <;> simp [scanWord, hp, hb, hd]

/-- A whitespace character is neither a word character nor a backslash. -/
theorem ws_not_word {c : Char} (h : wsChar c = true) :
    plainWordChar c = false ∧ c ≠ '\\' := by
  simp only [wsChar, Bool.or_eq_true, decide_eq_true_eq] at h
  rcases h with ((rfl | rfl) | rfl) | rfl <;> exact ⟨by decide, by decide⟩

/-- The first character of a well-formed token is a plain word character or
a backslash. -/
theorem wordUnits_head {c : Char} {cs : List Char} (h : wordUnits (c :: cs) = true) :
    plainWordChar c = true ∨ c = '\\' := by
  by_cases hp : plainWordChar c
  · exact .inl hp
  · by_cases hb : c = '\\'
    · exact .inr hb
    · rw [wordUnits_cons, if_neg hp, if_neg hb] at h
      exact absurd h (by simp)

theorem tok_head_not_ws {c : Char} (h : plainWordChar c = true ∨ c = '\\') :
    wsChar c = false := by
  cases hw : wsChar c
  · rfl
  · obtain ⟨h1, h2⟩ := ws_not_word hw
    rcases h with h | rfl
    · rw [h1] at h
      exact Bool.noConfusion h
    · exact absurd rfl h2

/-- A token's first character differs from any specific character that is
neither a plain word character nor a backslash. -/
theorem tok_head_ne {c : Char} (h : plainWordChar c = true ∨ c = '\\')
    {x : Char} (hx : plainWordChar x = false) (hx2 : x ≠ '\\') : c ≠ x := by
  rintro rfl
  rcases h with h | h
  · rw [h] at hx
    exact Bool.noConfusion hx
  · exact hx2 h

/-- The word scan matches nothing at a stopping continuation. -/
theorem scanWord_stop (r : List Char) (hr : stopsWord r = true) :
    scanWord r = ([], r) := by
  cases r with
  | nil => rfl
  | cons c cs =>
    have hc : stopChar c = true := hr
    simp only [stopChar, Bool.and_eq_true, Bool.not_eq_true', decide_eq_true_eq] at hc
    rw [scanWord_cons]
    simp [hc.1.1, hc.1.2]

theorem scanWord_append_aux : ∀ N : Nat, ∀ a r : List Char, a.length ≤ N →
    wordUnits a = true → stopsWord r = true → scanWord (a ++ r) = (a, r) := by
  intro N
  induction N with
  | zero =>
    intro a r hlen _ hr
    cases a with
    | nil => exact scanWord_stop r hr
    | cons c cs => simp at hlen
  | succ N ihN =>
    intro a r hlen ha hr
    cases a with
    | nil => exact scanWord_stop r hr
    | cons c cs =>
      rw [wordUnits_cons] at ha
      by_cases hp : plainWordChar c = true
      · rw [if_pos hp] at ha
        have ih := ihN cs r (by simp at hlen; omega) ha hr
        rw [List.cons_append, scanWord_cons]
        simp [hp, ih]
      · rw [if_neg hp] at ha
        by_cases hb : c = '\\'
        · rw [if_pos hb] at ha
          cases cs with
          | nil => exact absurd ha (by simp)
          | cons d ds =>
            simp only [Bool.and_eq_true] at ha
            have ih := ihN ds r (by simp at hlen; omega) ha.2 hr
            subst hb
            rw [List.cons_append, List.cons_append, scanWord_cons]
            simp [hp, ha.1, ih]
        · rw [if_neg hb] at ha
          exact absurd ha (by simp)

/-- Maximal munch: scanning a well-formed token followed by a stopping
continuation yields exactly the token. -/
theorem scanWord_append (a r : List Char) (ha : wordUnits a = true)
    (hr : stopsWord r = true) : scanWord (a ++ r) = (a, r) :=
  scanWord_append_aux a.length a r le_rfl ha hr

/-- `toUpper` only changes lowercase letters. -/
theorem toUpper_eq_self {c : Char} (h : c.isLower = false) : c.toUpper = c := by
  unfold Char.toUpper
  rw [if_neg]
  rintro ⟨h1, h2⟩
  have : c.isLower = true := by
    simp only [Char.isLower, Bool.and_eq_true, decide_eq_true_eq, ge_iff_le]
    exact ⟨h1, h2⟩
  rw [this] at h
  exact Bool.noConfusion h

theorem not_plain_not_alpha {c : Char} (h : plainWordChar c = false) :
    c.isAlpha = false := by
  cases ha : c.isAlpha
  · rfl
  · rw [plainWordChar, ha] at h
    exact absurd h (by simp)

theorem upChar_eq_self {c : Char} (h : c.isAlpha = false) : upChar c = c := by
  have hl : c.isLower = false := by
    cases hl : c.isLower
    · rfl
    · rw [Char.isAlpha, hl] at h
      exact absurd h (by simp)
  exact toUpper_eq_self hl

/-- On a state whose whitespace-stripped rest is `t ++ r`, `valid_word`
matches exactly the token `t` and unescapes it. -/
theorem pWord_at (p : Char) {rest t r : List Char}
    (hrest : rest.dropWhile wsChar = t ++ r)
    (ht : validTok t = true) (hr : stopsWord r = true) :
    pWord ⟨p, rest⟩ = some (unescapeWord t, ⟨t.getLastD ' ', r⟩) := by
  simp only [validTok, Bool.and_eq_true, Bool.not_eq_true'] at ht
  unfold pWord
  have h1 : (skipWsSt ⟨p, rest⟩).rest = t ++ r := by
    rw [skipWsSt, skipWs_rest]
    exact hrest
  rw [h1, scanWord_append t r ht.2 hr]
  cases t with
  | nil => exact absurd ht.1 (by simp)
  | cons c cs => rfl

/-- `Literal` fails when the first character after the whitespace is not the
literal's first character. -/
theorem matchLit_head_ne {x : Char} (xs : List Char) (st : PState)
    (h : (skipWsSt st).rest.head? ≠ some x) :
    matchLit (x :: xs) st = none := by
  unfold matchLit
  rcases hq : skipWsSt st with ⟨q, l⟩
  rw [hq] at h
  cases l with
  | nil => rfl
  | cons d ds =>
    have hd : x ≠ d := by
      intro hxd
      exact h (by simp [hxd])
    simp [matchLit.go, hd]

/-- `matchCaselessKw.go` is `kwAt` together with the consumed-state update. -/
theorem kwGo_eq (kw : List Char) : ∀ (p : Char) (l : List Char),
    matchCaselessKw.go kw ⟨p, l⟩ =
      if kwAt kw l then some ⟨(l.take kw.length).getLastD p, l.drop kw.length⟩
      else none := by
  induction kw with
  | nil =>
    intro p l
    cases l with
    | nil => simp [matchCaselessKw.go, kwAt, caselessPrefix, boundOk]
    | cons d ds =>
      by_cases hd : identChar d = true <;>
        simp [matchCaselessKw.go, kwAt, caselessPrefix, boundOk, hd]
  | cons c cs ih =>
    intro p l
    cases l with
    | nil => simp [matchCaselessKw.go, kwAt, caselessPrefix]
    | cons d ds =>
      by_cases hup : upChar c = upChar d
      · have hgo : matchCaselessKw.go (c :: cs) ⟨p, d :: ds⟩ = matchCaselessKw.go cs ⟨d, ds⟩ := by
          simp [matchCaselessKw.go, hup]
        have hkwa : kwAt (c :: cs) (d :: ds) = kwAt cs ds := by
          simp [kwAt, caselessPrefix, hup, List.drop_succ_cons]
        rw [hgo, ih d ds, hkwa]
        by_cases hk : kwAt cs ds = true
        · rw [if_pos hk, if_pos hk, List.length_cons, List.take_succ_cons,
            List.drop_succ_cons, List.getLastD_cons]
        · rw [if_neg (by simp [hk]), if_neg (by simp [hk])]
      · simp [matchCaselessKw.go, hup, kwAt, caselessPrefix]

/-- `CaselessKeyword` in terms of `kwAt`: the pre-boundary check on the
character preceding the match, then the caseless match with its
post-boundary. -/
theorem matchKw_eq (kw : List Char) (st : PState) :
    matchCaselessKw kw st =
      (if identChar (skipWsSt st).prev then none
       else if kwAt kw (skipWsSt st).rest then
         some ⟨((skipWsSt st).rest.take kw.length).getLastD (skipWsSt st).prev,
               (skipWsSt st).rest.drop kw.length⟩
       else none) := by
  unfold matchCaselessKw
  rcases hq : skipWsSt st with ⟨q, l⟩
  simp [hq, kwGo_eq]

/-- `CaselessKeyword` fails whenever `kwAt` does, regardless of the
pre-boundary. -/
theorem matchKw_none (kw : List Char) (st : PState)
    (h : kwAt kw (skipWsSt st).rest = false) : matchCaselessKw kw st = none := by
  rw [matchKw_eq, h]
  split <;> simp

/-- A keyword of letters can neither extend into nor take its boundary from
a stopping continuation: `kwAt` over `t ++ r` equals `kwAt` over `t` alone.
(The keywords in use consist of letters; a stopping character is not a
letter, so it cannot continue a caseless letter match, and it is not an
identifier character, so it leaves the boundary valid.) -/
theorem kwAt_append (kw : List Char) (hkw : ∀ c ∈ kw, (upChar c).isAlpha = true)
    (t r : List Char) (ht : wordUnits t = true) (hr : stopsWord r = true) :
    kwAt kw (t ++ r) = kwAt kw t := by
  induction kw generalizing t with
  | nil =>
    cases t with
    | nil =>
      cases r with
      | nil => rfl
      | cons c cs =>
        have hc : stopChar c = true := hr
        simp only [stopChar, Bool.and_eq_true, Bool.not_eq_true'] at hc
        simp [kwAt, caselessPrefix, boundOk, hc.2]
    | cons c cs => simp [kwAt, caselessPrefix, boundOk]
  | cons k ks ih =>
    cases t with
    | nil =>
      simp only [List.nil_append]
      cases r with
      | nil => rfl
      | cons c cs =>
        have hc : stopChar c = true := hr
        simp only [stopChar, Bool.and_eq_true, Bool.not_eq_true', decide_eq_true_eq] at hc
        have hca : c.isAlpha = false := not_plain_not_alpha hc.1.1
        have hne : upChar k ≠ upChar c := by
          intro hup
          rw [upChar_eq_self hca] at hup
          have := hkw k (by simp)
          rw [hup] at this
          rw [this] at hca
          exact Bool.noConfusion hca
        simp [kwAt, caselessPrefix, hne]
    | cons c cs =>
      have ht' : wordUnits cs = true ∨ (c = '\\' ∧ cs ≠ []) := by
        rw [wordUnits_cons] at ht
        by_cases hp : plainWordChar c = true
        · rw [if_pos hp] at ht
          exact .inl ht
        · rw [if_neg hp] at ht
          by_cases hb : c = '\\'
          · rw [if_pos hb] at ht
            cases cs with
            | nil => exact absurd ht (by simp)
            | cons d ds => exact .inr ⟨hb, by simp⟩
          · rw [if_neg hb] at ht
            exact absurd ht (by simp)
      by_cases hup : upChar k = upChar c
      · rcases ht' with ht' | ⟨hb, hcs⟩
        · have heq := ih (fun x hx => hkw x (by simp [hx])) cs ht'
          simp only [List.cons_append, kwAt, caselessPrefix, hup, List.length_cons,
            List.drop_succ_cons, Bool.and_eq_true, decide_eq_true_eq] at heq ⊢
          simpa [Bool.and_assoc] using heq
        · exfalso
          have := hkw k (by simp)
          rw [hup, hb] at this
          have h2 : upChar '\\' = '\\' := by decide
          rw [h2] at this
          exact absurd this (by decide)
      · simp [kwAt, caselessPrefix, hup]

/-! ### Failure of every parser on exhausted input -/

theorem pWord_nil (p : Char) : pWord ⟨p, []⟩ = none := rfl

theorem pWordExpr_nil (p : Char) : pWordExpr ⟨p, []⟩ = none := rfl

theorem pStringExpr_nil (p : Char) : pStringExpr ⟨p, []⟩ = none := rfl

theorem pFieldColon_nil (p : Char) : pFieldColon ⟨p, []⟩ = none := rfl

theorem matchLit_nil (x : Char) (xs : List Char) (p : Char) :
    matchLit (x :: xs) ⟨p, []⟩ = none := rfl

theorem pRangeWith_nil (x : Char) (xs rb : List Char) (incl : Bool) :
    ∀ n p, pRangeWith (x :: xs) rb incl n ⟨p, []⟩ = none := by
  intro n p
  cases n with
  | zero => rfl
  | succ n => simp [pRangeWith, matchLit_nil]

theorem pRangeSearch_nil : ∀ (n : Nat) (p : Char), pRangeSearch n ⟨p, []⟩ = none := by
  intro n p
  cases n with
  | zero => rfl
  | succ n => simp [pRangeSearch, pRangeWith_nil]

theorem pGroupBody_nil : ∀ (n : Nat) (p : Char), pGroupBody n ⟨p, []⟩ = none := by
  intro n p
  cases n with
  | zero => rfl
  | succ n => simp [pGroupBody, matchLit_nil]

theorem pTermAfterField_nil : ∀ (n : Nat) (fld : Option (List Char)) (p : Char),
    pTermAfterField n fld ⟨p, []⟩ = none := by
  intro n fld p
  cases n with
  | zero => rfl
  | succ n =>
    simp [pTermAfterField, pWordExpr_nil, pStringExpr_nil, pRangeSearch_nil, pGroupBody_nil]

theorem pTerm_nil : ∀ (n : Nat) (p : Char), pTerm n ⟨p, []⟩ = none := by
  intro n p
  cases n with
  | zero => rfl
  | succ n => simp [pTerm, pFieldColon_nil, pTermAfterField_nil]

theorem pTermOrParen_nil : ∀ (n : Nat) (p : Char), pTermOrParen n ⟨p, []⟩ = none := by
  intro n p
  cases n with
  | zero => rfl
  | succ n => simp [pTermOrParen, pTerm_nil, matchLit_nil]

theorem pPlusMinusOp_nil (p : Char) : pPlusMinusOp ⟨p, []⟩ = none := rfl

theorem pPlusMinusLevel_nil : ∀ (n : Nat) (p : Char), pPlusMinusLevel n ⟨p, []⟩ = none := by
  intro n p
  cases n with
  | zero => rfl
  | succ n => simp [pPlusMinusLevel, pPlusMinusOp_nil, pTermOrParen_nil]

theorem pNotOp_nil (p : Char) : pNotOp ⟨p, []⟩ = none := by
  unfold pNotOp
  rw [matchKw_none _ _ (by rfl)]
  rfl

theorem pNotLevel_nil : ∀ (n : Nat) (p : Char), pNotLevel n ⟨p, []⟩ = none := by
  intro n p
  cases n with
  | zero => rfl
  | succ n => simp [pNotLevel, pNotOp_nil, pPlusMinusLevel_nil]

theorem pAndOp_nil (p : Char) : pAndOp ⟨p, []⟩ = none := by
  unfold pAndOp
  rw [matchKw_none _ _ (by rfl)]
  rfl

theorem pOrOp_nil (p : Char) : pOrOp ⟨p, []⟩ = none := by
  unfold pOrOp
  rw [matchKw_none _ _ (by rfl)]
  rfl

theorem pAndLevel_nil : ∀ (n : Nat) (p : Char), pAndLevel n ⟨p, []⟩ = none := by
  intro n p
  cases n with
  | zero => rfl
  | succ n => simp [pAndLevel, pNotLevel_nil]

/-- The AND fold stops at exhausted input, keeping its accumulator. -/
theorem pAndLoop_nil (n : Nat) (acc : QExpr) (p : Char) :
    pAndLoop n acc ⟨p, []⟩ = some (acc, ⟨p, []⟩) := by
  cases n with
  | zero => rfl
  | succ n => simp [pAndLoop, pAndOp_nil]

/-- The OR fold stops at exhausted input, keeping its accumulator. -/
theorem pOrLoop_nil (n : Nat) (acc : QExpr) (p : Char) :
    pOrLoop n acc ⟨p, []⟩ = some (acc, ⟨p, []⟩) := by
  cases n with
  | zero => rfl
  | succ n => simp [pOrLoop, pOrOp_nil, pAndLevel_nil]

/-! ### The parser on a single word token -/

theorem validTok_head {t : List Char} (ht : validTok t = true) :
    ∃ c cs, t = c :: cs ∧ (plainWordChar c = true ∨ c = '\\') := by
  simp only [validTok, Bool.and_eq_true, Bool.not_eq_true'] at ht
  cases t with
  | nil => exact absurd ht.1 (by simp)
  | cons c cs => exact ⟨c, cs, rfl, wordUnits_head ht.2⟩

/-- No whitespace is skipped in front of a token. -/
theorem dropWhile_token {t r : List Char} (ht : validTok t = true) :
    (t ++ r).dropWhile wsChar = t ++ r := by
  obtain ⟨c, cs, rfl, hh⟩ := validTok_head ht
  simp [List.dropWhile_cons, tok_head_not_ws hh]

/-- Tokens do not begin with whitespace. -/
theorem dropWhile_ws_token {t : List Char} (ht : validTok t = true) :
    t.dropWhile wsChar = t := by
  have h := dropWhile_token (r := []) ht
  simpa using h

/-- A literal whose first character is not a word character fails at a token. -/
theorem matchLit_at_token {x : Char} (xs : List Char) (p : Char) {rest t r : List Char}
    (hrest : rest.dropWhile wsChar = t ++ r)
    (ht : validTok t = true) (hx : plainWordChar x = false) (hx2 : x ≠ '\\') :
    matchLit (x :: xs) ⟨p, rest⟩ = none := by
  apply matchLit_head_ne
  rw [skipWsSt, skipWs_rest]
  simp only [hrest]
  obtain ⟨c, cs, rfl, hh⟩ := validTok_head ht
  simp [tok_head_ne hh hx hx2]

/-- A literal fails at a token whose first character it does not match. -/
theorem matchLit_at_token_ne {x : Char} (xs : List Char) (p : Char) {rest t r : List Char}
    (hrest : rest.dropWhile wsChar = t ++ r)
    (ht : validTok t = true) (hx : t.head? ≠ some x) :
    matchLit (x :: xs) ⟨p, rest⟩ = none := by
  apply matchLit_head_ne
  rw [skipWsSt, skipWs_rest]
  simp only [hrest]
  obtain ⟨c, cs, rfl, -⟩ := validTok_head ht
  simp only [List.head?_cons] at hx
  simp only [List.cons_append, List.head?_cons]
  exact hx

/-- The separator condition blocks the colon, tilde and carat literals. -/
theorem matchLit_sep {x : Char} (xs : List Char) (p : Char) {r : List Char}
    (hsep : sepOk r = true) (hx : x = ':' ∨ x = '~' ∨ x = '^') :
    matchLit (x :: xs) ⟨p, r⟩ = none := by
  apply matchLit_head_ne
  rw [skipWsSt, skipWs_rest]
  unfold sepOk at hsep
  cases hdw : r.dropWhile wsChar with
  | nil => simp
  | cons c cs =>
    rw [hdw] at hsep
    simp only [Bool.and_eq_true, decide_eq_true_eq] at hsep
    obtain ⟨⟨h1, h2⟩, h3⟩ := hsep
    rcases hx with rfl | rfl | rfl <;> simp [h1, h2, h3]

/-- On a token followed by a separating continuation, `term` parses the bare
word term. -/
theorem pTerm_token (n : Nat) (p : Char) {rest t r : List Char}
    (hrest : rest.dropWhile wsChar = t ++ r)
    (ht : validTok t = true) (hr : stopsWord r = true) (hsep : sepOk r = true) :
    pTerm (n + 2) ⟨p, rest⟩ =
      some (⟨none, .word (unescapeWord t), none, none, none⟩, ⟨t.getLastD ' ', r⟩) := by
  have hw : pWord ⟨p, rest⟩ = some (unescapeWord t, ⟨t.getLastD ' ', r⟩) :=
    pWord_at p hrest ht hr
  have hcol : matchLit [':'] ⟨t.getLastD ' ', r⟩ = none := matchLit_sep _ _ hsep (.inl rfl)
  have htil : matchLit ['~'] ⟨t.getLastD ' ', r⟩ = none :=
    matchLit_sep _ _ hsep (.inr (.inl rfl))
  have hcar : matchLit ['^'] ⟨t.getLastD ' ', r⟩ = none :=
    matchLit_sep _ _ hsep (.inr (.inr rfl))
  have hfc : pFieldColon ⟨p, rest⟩ = none := by
    simp only [pFieldColon, hw, hcol]
  have hwe : pWordExpr ⟨p, rest⟩ =
      some ((.word (unescapeWord t), none, none), ⟨t.getLastD ' ', r⟩) := by
    simp only [pWordExpr, hw, htil]
  have hbo : pBoost ⟨t.getLastD ' ', r⟩ = none := by
    simp only [pBoost, hcar]
  show pTerm (n + 1 + 1) _ = _
  simp only [pTerm, hfc, pTermAfterField, hwe, finishTerm, hbo]

theorem pTermOrParen_token (n : Nat) (p : Char) {rest t r : List Char}
    (hrest : rest.dropWhile wsChar = t ++ r)
    (ht : validTok t = true) (hr : stopsWord r = true) (hsep : sepOk r = true) :
    pTermOrParen (n + 3) ⟨p, rest⟩ =
      some (.term ⟨none, .word (unescapeWord t), none, none, none⟩, ⟨t.getLastD ' ', r⟩) := by
  show pTermOrParen (n + 2 + 1) _ = _
  simp [pTermOrParen, pTerm_token n p hrest ht hr hsep]

theorem pPlusMinusLevel_token (n : Nat) (p : Char) {rest t r : List Char}
    (hrest : rest.dropWhile wsChar = t ++ r)
    (ht : validTok t = true) (hr : stopsWord r = true) (hsep : sepOk r = true)
    (h3 : t.head? ≠ some '+') (h4 : t.head? ≠ some '-') :
    pPlusMinusLevel (n + 4) ⟨p, rest⟩ =
      some (.term ⟨none, .word (unescapeWord t), none, none, none⟩, ⟨t.getLastD ' ', r⟩) := by
  have hop : pPlusMinusOp ⟨p, rest⟩ = none := by
    unfold pPlusMinusOp
    rw [matchLit_at_token_ne _ _ hrest ht h3, matchLit_at_token_ne _ _ hrest ht h4]
  show pPlusMinusLevel (n + 3 + 1) _ = _
  simp [pPlusMinusLevel, hop, pTermOrParen_token n p hrest ht hr hsep]

theorem pNotLevel_token (n : Nat) (p : Char) {rest t r : List Char}
    (hrest : rest.dropWhile wsChar = t ++ r)
    (ht : validTok t = true) (hr : stopsWord r = true) (hsep : sepOk r = true)
    (h3 : t.head? ≠ some '+') (h4 : t.head? ≠ some '-')
    (h5 : kwAt notKW t = false) :
    pNotLevel (n + 5) ⟨p, rest⟩ =
      some (.term ⟨none, .word (unescapeWord t), none, none, none⟩, ⟨t.getLastD ' ', r⟩) := by
  have htu : wordUnits t = true := by
    simp only [validTok, Bool.and_eq_true] at ht
    exact ht.2
  have hnot : pNotOp ⟨p, rest⟩ = none := by
    unfold pNotOp
    rw [matchKw_none _ _ (by
      rw [skipWsSt, skipWs_rest]
      simp only [hrest]
      rw [kwAt_append ['N', 'O', 'T'] (by decide) t r htu hr]
      exact h5)]
    exact matchLit_at_token _ _ hrest ht (by decide) (by decide)
  show pNotLevel (n + 4 + 1) _ = _
  simp [pNotLevel, hnot, pPlusMinusLevel_token n p hrest ht hr hsep h3 h4]

/-- `pAndLevel` on a token hands over to the AND fold with the parsed word
term as accumulator. -/
theorem pAndLevel_token (n : Nat) (p : Char) {rest t r : List Char}
    (hrest : rest.dropWhile wsChar = t ++ r)
    (ht : validTok t = true) (hr : stopsWord r = true) (hsep : sepOk r = true)
    (h3 : t.head? ≠ some '+') (h4 : t.head? ≠ some '-')
    (h5 : kwAt notKW t = false) :
    pAndLevel (n + 6) ⟨p, rest⟩ =
      pAndLoop (n + 5) (.term ⟨none, .word (unescapeWord t), none, none, none⟩)
        ⟨t.getLastD ' ', r⟩ := by
  show pAndLevel (n + 5 + 1) _ = _
  simp [pAndLevel, pNotLevel_token n p hrest ht hr hsep h3 h4 h5]

/-- A single token as the whole input parses as one bare word term. -/
theorem pOrLevel_single (n : Nat) (p : Char) {t : List Char}
    (ht : validTok t = true) (h3 : t.head? ≠ some '+') (h4 : t.head? ≠ some '-')
    (h5 : kwAt notKW t = false) :
    pOrLevel (n + 7) ⟨p, t⟩ =
      some (.term ⟨none, .word (unescapeWord t), none, none, none⟩, ⟨t.getLastD ' ', []⟩) := by
  have hrest : t.dropWhile wsChar = t ++ [] := by
    simpa using dropWhile_ws_token ht
  show pOrLevel (n + 6 + 1) _ = _
  simp only [pOrLevel]
  rw [pAndLevel_token n p hrest ht (by rfl) (by rfl) h3 h4 h5, pAndLoop_nil]
  exact pOrLoop_nil (n + 6) _ (t.getLastD ' ')

/-- The single-token master lemma: any well-formed `valid_word` token that
does not begin with `+`, `-` or a boundary-delimited `NOT` keyword parses,
as the whole input, to the bare word term holding its unescaped text. -/
theorem parse_single_token {t : List Char} (ht : validTok t = true)
    (h3 : t.head? ≠ some '+') (h4 : t.head? ≠ some '-') (h5 : kwAt notKW t = false) :
    parse (String.mk t) = .ok (.term ⟨none, .word (unescapeWord t), none, none, none⟩) := by
  unfold parse pExpression
  obtain ⟨m, hm⟩ : ∃ m, fuelFor (String.mk t) = m + 7 :=
    ⟨16 * t.length + 57, by show 16 * t.length + 64 = 16 * t.length + 57 + 7; omega⟩
  rw [show (String.mk t).data = t from rfl, hm, pOrLevel_single m ' ' ht h3 h4 h5]
  simp [skipWsSt, skipWs]

/-! ### Two adjacent tokens, with and without an explicit `OR` -/

theorem dropWhile_sp_token {b : List Char} (hb : validTok b = true) :
    (' ' :: b).dropWhile wsChar = b ++ [] := by
  simp [List.dropWhile_cons, dropWhile_ws_token hb,
    show wsChar ' ' = true from by decide]

theorem sepOk_token {b : List Char} (hb : validTok b = true) :
    sepOk (' ' :: b) = true := by
  unfold sepOk
  rw [show (' ' :: b).dropWhile wsChar = b by simpa using dropWhile_sp_token hb]
  obtain ⟨c, cs, rfl, hh⟩ := validTok_head hb
  simp [tok_head_ne hh (show plainWordChar ':' = false from by decide) (by decide),
    tok_head_ne hh (show plainWordChar '~' = false from by decide) (by decide),
    tok_head_ne hh (show plainWordChar '^' = false from by decide) (by decide)]

/-- The AND operator fails in front of a token that is not an AND keyword. -/
theorem pAndOp_fail (p : Char) {b : List Char} (hb : validTok b = true)
    (hA : kwAt andKW b = false) : pAndOp ⟨p, ' ' :: b⟩ = none := by
  unfold pAndOp
  rw [matchKw_none _ _ (by
    rw [skipWsSt, skipWs_rest,
      show (' ' :: b).dropWhile wsChar = b by simpa using dropWhile_sp_token hb]
    exact hA)]
  apply matchLit_head_ne
  rw [skipWsSt, skipWs_rest,
    show (' ' :: b).dropWhile wsChar = b by simpa using dropWhile_sp_token hb]
  obtain ⟨c, cs, rfl, hh⟩ := validTok_head hb
  simp [tok_head_ne hh (show plainWordChar '&' = false from by decide) (by decide)]

/-- The OR operator fails in front of a token that is not an OR keyword. -/
theorem pOrOp_fail (p : Char) {b : List Char} (hb : validTok b = true)
    (hO : kwAt orKW b = false) : pOrOp ⟨p, ' ' :: b⟩ = none := by
  unfold pOrOp
  rw [matchKw_none _ _ (by
    rw [skipWsSt, skipWs_rest,
      show (' ' :: b).dropWhile wsChar = b by simpa using dropWhile_sp_token hb]
    exact hO)]
  apply matchLit_head_ne
  rw [skipWsSt, skipWs_rest,
    show (' ' :: b).dropWhile wsChar = b by simpa using dropWhile_sp_token hb]
  obtain ⟨c, cs, rfl, hh⟩ := validTok_head hb
  simp [tok_head_ne hh (show plainWordChar '|' = false from by decide) (by decide)]

/-- The OR keyword, surrounded by spaces, matches and consumes through its
last letter. -/
theorem pOrOp_match (p : Char) (b : List Char) :
    pOrOp ⟨p, ' ' :: 'O' :: 'R' :: ' ' :: b⟩ = some ⟨'R', ' ' :: b⟩ := by
  unfold pOrOp
  rw [matchKw_eq]
  rw [show skipWsSt ⟨p, ' ' :: 'O' :: 'R' :: ' ' :: b⟩ = ⟨' ', 'O' :: 'R' :: ' ' :: b⟩ from rfl]
  simp [kwAt, caselessPrefix, boundOk,
    show identChar ' ' = false from by decide]

/-- The AND operator fails at the explicit `OR` keyword. -/
theorem pAndOp_fail_at_or (p : Char) (b : List Char) :
    pAndOp ⟨p, ' ' :: 'O' :: 'R' :: ' ' :: b⟩ = none := by
  unfold pAndOp
  rw [matchKw_none _ _ (by
    rw [show skipWsSt ⟨p, ' ' :: 'O' :: 'R' :: ' ' :: b⟩ = ⟨' ', 'O' :: 'R' :: ' ' :: b⟩ from rfl]
    simp [kwAt, caselessPrefix]
    intro h
    exact absurd h (by decide))]
  apply matchLit_head_ne
  rw [show skipWsSt ⟨p, ' ' :: 'O' :: 'R' :: ' ' :: b⟩ = ⟨' ', 'O' :: 'R' :: ' ' :: b⟩ from rfl]
  simp

/-- Implicit adjacency: `token token` parses as `Or` of the two word terms. -/
theorem pOrLevel_adjacent (n : Nat) (p : Char) {a b : List Char}
    (ha : validTok a = true) (hb : validTok b = true)
    (ha3 : a.head? ≠ some '+') (ha4 : a.head? ≠ some '-') (ha5 : kwAt notKW a = false)
    (hb3 : b.head? ≠ some '+') (hb4 : b.head? ≠ some '-') (hb5 : kwAt notKW b = false)
    (hbOr : kwAt orKW b = false) (hbAnd : kwAt andKW b = false) :
    pOrLevel (n + 8) ⟨p, a ++ ' ' :: b⟩ =
      some (.orE (.term ⟨none, .word (unescapeWord a), none, none, none⟩)
                 (.term ⟨none, .word (unescapeWord b), none, none, none⟩),
            ⟨b.getLastD ' ', []⟩) := by
  have hrest : (a ++ ' ' :: b).dropWhile wsChar = a ++ ' ' :: b := dropWhile_token ha
  have hrs : stopsWord (' ' :: b) = true := rfl
  have hsep : sepOk (' ' :: b) = true := sepOk_token hb
  have hAL : pAndLevel (n + 7) ⟨p, a ++ ' ' :: b⟩ =
      some (.term ⟨none, .word (unescapeWord a), none, none, none⟩,
            ⟨a.getLastD ' ', ' ' :: b⟩) := by
    rw [show n + 7 = (n + 1) + 6 from by omega,
      pAndLevel_token (n + 1) p hrest ha hrs hsep ha3 ha4 ha5]
    rw [show (n + 1) + 5 = (n + 5) + 1 from by omega]
    simp [pAndLoop, pAndOp_fail _ hb hbAnd]
  have hAL2 : pAndLevel (n + 6) ⟨a.getLastD ' ', ' ' :: b⟩ =
      pAndLoop (n + 5) (.term ⟨none, .word (unescapeWord b), none, none, none⟩)
        ⟨b.getLastD ' ', []⟩ :=
    pAndLevel_token n _ (dropWhile_sp_token hb) hb (by rfl) (by rfl) hb3 hb4 hb5
  show pOrLevel (n + 7 + 1) _ = _
  simp only [pOrLevel, hAL]
  show pOrLoop (n + 6 + 1) _ _ = _
  simp only [pOrLoop, pOrOp_fail _ hb hbOr, hAL2, pAndLoop_nil]
  exact pOrLoop_nil (n + 6) _ _

/-- Explicit join: `token OR token` parses as the same `Or`. -/
theorem pOrLevel_explicit_or (n : Nat) (p : Char) {a b : List Char}
    (ha : validTok a = true) (hb : validTok b = true)
    (ha3 : a.head? ≠ some '+') (ha4 : a.head? ≠ some '-') (ha5 : kwAt notKW a = false)
    (hb3 : b.head? ≠ some '+') (hb4 : b.head? ≠ some '-') (hb5 : kwAt notKW b = false) :
    pOrLevel (n + 8) ⟨p, a ++ ' ' :: 'O' :: 'R' :: ' ' :: b⟩ =
      some (.orE (.term ⟨none, .word (unescapeWord a), none, none, none⟩)
                 (.term ⟨none, .word (unescapeWord b), none, none, none⟩),
            ⟨b.getLastD ' ', []⟩) := by
  have hrest : (a ++ ' ' :: 'O' :: 'R' :: ' ' :: b).dropWhile wsChar =
      a ++ ' ' :: 'O' :: 'R' :: ' ' :: b := dropWhile_token ha
  have hrs : stopsWord (' ' :: 'O' :: 'R' :: ' ' :: b) = true := rfl
  have hsep : sepOk (' ' :: 'O' :: 'R' :: ' ' :: b) = true := rfl
  have hAL : pAndLevel (n + 7) ⟨p, a ++ ' ' :: 'O' :: 'R' :: ' ' :: b⟩ =
      some (.term ⟨none, .word (unescapeWord a), none, none, none⟩,
            ⟨a.getLastD ' ', ' ' :: 'O' :: 'R' :: ' ' :: b⟩) := by
    rw [show n + 7 = (n + 1) + 6 from by omega,
      pAndLevel_token (n + 1) p hrest ha hrs hsep ha3 ha4 ha5]
    rw [show (n + 1) + 5 = (n + 5) + 1 from by omega]
    simp [pAndLoop, pAndOp_fail_at_or]
  have hAL2 : pAndLevel (n + 6) ⟨'R', ' ' :: b⟩ =
      pAndLoop (n + 5) (.term ⟨none, .word (unescapeWord b), none, none, none⟩)
        ⟨b.getLastD ' ', []⟩ :=
    pAndLevel_token n _ (dropWhile_sp_token hb) hb (by rfl) (by rfl) hb3 hb4 hb5
  show pOrLevel (n + 7 + 1) _ = _
  simp only [pOrLevel, hAL]
  show pOrLoop (n + 6 + 1) _ _ = _
  simp only [pOrLoop, pOrOp_match, hAL2, pAndLoop_nil]
  exact pOrLoop_nil (n + 6) _ _

/-! ### Escaping and the single-pass unescape -/

theorem replPairs_cons_ne {c : Char} (hc : c ≠ '\\') (l : List Char) :
    replPairs (c :: l) = c :: replPairs l := by
  cases l with
  | nil => rfl
  | cons d ds =>
    simp only [replPairs]
    rw [if_neg]
    rintro ⟨h1, -⟩
    exact hc h1

theorem unescapeWord_cons_plain {c : Char} (hc : c ≠ '\\') (hc2 : c ≠ Char.ofNat 127)
    (l : List Char) : unescapeWord (c :: l) = c :: unescapeWord l := by
  unfold unescapeWord
  rw [replPairs_cons_ne hc]
  simp [List.filter_cons, hc, hc2]

theorem unescapeWord_esc_pair {c : Char} (hc : c ≠ '\\') (hc2 : c ≠ Char.ofNat 127)
    (l : List Char) : unescapeWord ('\\' :: c :: l) = c :: unescapeWord l := by
  unfold unescapeWord
  have h1 : replPairs ('\\' :: c :: l) = '\\' :: replPairs (c :: l) := by
    simp only [replPairs]
    rw [if_neg]
    rintro ⟨-, h2⟩
    exact hc h2
  rw [h1, replPairs_cons_ne hc]
  simp [List.filter_cons, hc, hc2]

theorem unescapeWord_bs_pair (l : List Char) :
    unescapeWord ('\\' :: '\\' :: l) = '\\' :: unescapeWord l := by
  unfold unescapeWord
  have h1 : replPairs ('\\' :: '\\' :: l) = Char.ofNat 127 :: replPairs l := by
    simp [replPairs]
  rw [h1]
  have hd : (Char.ofNat 127 : Char) ≠ '\\' := by decide
  simp [List.filter_cons, hd]

theorem esc_not_del {c : Char} (h : escWordChar c = true) : c ≠ Char.ofNat 127 := by
  rintro rfl
  exact absurd h (by decide)

theorem plain_not_del {c : Char} (h : plainWordChar c = true) : c ≠ Char.ofNat 127 := by
  rintro rfl
  exact absurd h (by decide)

theorem plain_ne_bs {c : Char} (h : plainWordChar c = true) : c ≠ '\\' := by
  rintro rfl
  exact absurd h (by decide)

theorem esc_not_alpha {c : Char} (h : escWordChar c = true) : c.isAlpha = false := by
  simp only [escWordChar, Bool.or_eq_true, decide_eq_true_eq] at h
  rcases h with ((((((((((((h | h) | h) | h) | h) | h) | h) | h) | h) | h) | h) | h) | h) | h <;>
    subst h <;> decide

theorem esc_not_ident {c : Char} (h : escWordChar c = true) : identChar c = false := by
  simp only [escWordChar, Bool.or_eq_true, decide_eq_true_eq] at h
  rcases h with ((((((((((((h | h) | h) | h) | h) | h) | h) | h) | h) | h) | h) | h) | h) | h <;>
    subst h <;> decide

theorem wordAlpha_cons {c : Char} {cs : List Char} (h : wordAlpha (c :: cs) = true) :
    (plainWordChar c = true ∨ escWordChar c = true) ∧ wordAlpha cs = true := by
  simp only [wordAlpha, List.all_cons, Bool.and_eq_true, Bool.or_eq_true] at h
  exact ⟨h.1, h.2⟩

/-- Unescaping inverts the escaped encoding, in a single pass. -/
theorem unescapeWord_escWord (w : List Char) (hw : wordAlpha w = true) :
    unescapeWord (escWord w) = w := by
  induction w with
  | nil => rfl
  | cons c cs ih =>
    obtain ⟨hc, hw'⟩ := wordAlpha_cons hw
    unfold escWord
    by_cases he : escWordChar c = true
    · rw [if_pos he]
      by_cases hb : c = '\\'
      · subst hb
        rw [unescapeWord_bs_pair, ih hw']
      · rw [unescapeWord_esc_pair hb (esc_not_del he), ih hw']
    · rw [if_neg he]
      have hp : plainWordChar c = true := by
        rcases hc with hp | hesc
        · exact hp
        · exact absurd hesc he
      rw [unescapeWord_cons_plain (plain_ne_bs hp) (plain_not_del hp), ih hw']

/-- The escaped encoding is a well-formed token language word. -/
theorem escWord_wordUnits (w : List Char) (hw : wordAlpha w = true) :
    wordUnits (escWord w) = true := by
  induction w with
  | nil => rfl
  | cons c cs ih =>
    obtain ⟨hc, hw'⟩ := wordAlpha_cons hw
    unfold escWord
    by_cases he : escWordChar c = true
    · rw [if_pos he, wordUnits_cons]
      simp [he, ih hw', show plainWordChar '\\' = false from by decide]
    · have hp : plainWordChar c = true := by
        rcases hc with hp | hesc
        · exact hp
        · exact absurd hesc he
      rw [if_neg he, wordUnits_cons]
      simp [hp, ih hw']

theorem escWord_ne_nil {w : List Char} (hw : w ≠ []) : escWord w ≠ [] := by
  cases w with
  | nil => exact absurd rfl hw
  | cons c cs =>
    unfold escWord
    by_cases he : escWordChar c = true <;> simp [he]

theorem escWord_validTok {w : List Char} (hw : wordAlpha w = true) (hne : w ≠ []) :
    validTok (escWord w) = true := by
  simp only [validTok, Bool.and_eq_true, Bool.not_eq_true']
  refine ⟨?_, escWord_wordUnits w hw⟩
  cases hE : escWord w with
  | nil => exact absurd hE (escWord_ne_nil hne)
  | cons d ds => rfl

theorem escWord_alpha (w : List Char) (hw : wordAlpha w = true) :
    wordAlpha (escWord w) = true := by
  induction w with
  | nil => rfl
  | cons c cs ih =>
    obtain ⟨hc, hw'⟩ := wordAlpha_cons hw
    unfold escWord
    by_cases he : escWordChar c = true
    · rw [if_pos he]
      simp only [wordAlpha, List.all_cons, Bool.and_eq_true]
      exact ⟨by decide, by simpa [Bool.or_eq_true] using Or.inr he,
        by simpa [wordAlpha] using ih hw'⟩
    · have hp : plainWordChar c = true := by
        rcases hc with hp | hesc
        · exact hp
        · exact absurd hesc he
      rw [if_neg he]
      simp only [wordAlpha, List.all_cons, Bool.and_eq_true]
      exact ⟨by simpa [Bool.or_eq_true] using Or.inl hp, by simpa [wordAlpha] using ih hw'⟩

theorem escWord_head_ne {x : Char} (hx : x ≠ '\\') {w : List Char}
    (h : w.head? ≠ some x) : (escWord w).head? ≠ some x := by
  cases w with
  | nil => simp [escWord]
  | cons c cs =>
    unfold escWord
    by_cases he : escWordChar c = true
    · rw [if_pos he]
      simp only [List.head?_cons, ne_eq, Option.some.injEq]
      intro hbx
      exact hx hbx.symm
    · rw [if_neg he]
      simpa using h

/-- A keyword of letters matches at the escaped encoding exactly when it
matches at the literal word: escape pairs begin with a backslash (which no
letter matches caselessly) and escapable characters are neither letters nor
identifier characters. -/
theorem kwAt_escWord (kw : List Char) (hkw : ∀ k ∈ kw, (upChar k).isAlpha = true) :
    ∀ w : List Char, wordAlpha w = true → kwAt kw (escWord w) = kwAt kw w := by
  induction kw with
  | nil =>
    intro w hw
    cases w with
    | nil => rfl
    | cons c cs =>
      obtain ⟨hc, -⟩ := wordAlpha_cons hw
      unfold escWord
      by_cases he : escWordChar c = true
      · rw [if_pos he]
        simp [kwAt, caselessPrefix, boundOk, esc_not_ident he,
          show identChar '\\' = false from by decide]
      · rw [if_neg he]
        simp [kwAt, caselessPrefix, boundOk]
  | cons k ks ih =>
    intro w hw
    cases w with
    | nil => rfl
    | cons c cs =>
      obtain ⟨hc, hw'⟩ := wordAlpha_cons hw
      unfold escWord
      by_cases he : escWordChar c = true
      · rw [if_pos he]
        have h1 : upChar k ≠ upChar '\\' := by
          intro hup
          have := hkw k (by simp)
          rw [hup, show upChar '\\' = '\\' from by decide] at this
          exact absurd this (by decide)
        have h2 : upChar k ≠ upChar c := by
          intro hup
          have halpha := hkw k (by simp)
          rw [hup, upChar_eq_self (esc_not_alpha he)] at halpha
          exact absurd halpha (by simp [esc_not_alpha he])
        simp [kwAt, caselessPrefix, h1, h2]
      · have hp : plainWordChar c = true := by
          rcases hc with hp | hesc
          · exact hp
          · exact absurd hesc he
        rw [if_neg he]
        by_cases hup : upChar k = upChar c
        · have heq := ih (fun x hx => hkw x (by simp [hx])) cs hw'
          simp only [kwAt, caselessPrefix, hup, List.length_cons, List.drop_succ_cons,
            Bool.and_eq_true, decide_eq_true_eq] at heq ⊢
          simpa [Bool.and_assoc] using heq
        · simp [kwAt, caselessPrefix, hup]

/-- C1: for the input `a OR b AND c`, parse returns `Or(a, And(b, c))` —
`AND` (and `&&`) binds tighter than `OR` (and `||`), and both binary levels
fold left-associatively. -/
theorem c1_precedence :
    parse "a OR b AND c" = .ok (.orE (wordE "a") (.andE (wordE "b") (wordE "c"))) ∧
    parse "a || b && c" = .ok (.orE (wordE "a") (.andE (wordE "b") (wordE "c"))) ∧
    parse "a OR b OR c" = .ok (.orE (.orE (wordE "a") (wordE "b")) (wordE "c")) ∧
    parse "a AND b AND c" = .ok (.andE (.andE (wordE "a") (wordE "b")) (wordE "c")) :=
  ⟨by rfl, by rfl, by rfl, by rfl⟩

/-- C10: the operator keywords are not reserved in term position — each of
`AND`, `OR`, `NOT`, `TO`, given alone as the whole input, parses successfully
as an ordinary word term (the `keyword` alternation of line 20 is never
attached to any rule). -/
theorem c10_keywords_not_reserved :
    parse "AND" = .ok (wordE "AND") ∧
    parse "OR" = .ok (wordE "OR") ∧
    parse "NOT" = .ok (wordE "NOT") ∧
    parse "TO" = .ok (wordE "TO") :=
  ⟨by rfl, by rfl, by rfl, by rfl⟩

/-- C9 counterexample: the input `+-a`, in which one term is preceded by both
the required modifier `+` and the prohibited modifier `-`, does NOT fail:
the unary level is right-associative and stacks, so it parses as
`required(prohibited(a))`.  This refutes the claim that such inputs fail
with `GrammarError`. -/
theorem c9_counterexample :
    parse "+-a" = .ok (.required (.prohibited (wordE "a"))) ∧
    ¬ (∃ g, parse "+-a" = .error g) := by
  refine ⟨by rfl, ?_⟩
  rintro ⟨g, hg⟩
  rw [show parse "+-a" = .ok (.required (.prohibited (wordE "a"))) from by rfl] at hg
  exact Except.noConfusion hg

/-- C9 amended: `+` and `-` stack right-associatively on a single term
rather than conflicting; `+-a` parses as `required(prohibited(a))` and
`-+a` parses as `prohibited(required(a))` — the grammar never rejects a term
for carrying both markers. -/
theorem c9_amended :
    parse "+-a" = .ok (.required (.prohibited (wordE "a"))) ∧
    parse "-+a" = .ok (.prohibited (.required (wordE "a"))) :=
  ⟨by rfl, by rfl⟩

/-- C4 counterexample: in `[* TO z]` the wildcard lower bound is parsed as
the literal word `*` (the `*` is an ordinary `valid_word` character), with no
structural unbounded-endpoint representation — indeed the escaped form
`[\* TO z]` parses to exactly the same tree, so the two cannot be
distinguished downstream. -/
theorem c4_counterexample :
    parse "[* TO z]" = .ok (.term ⟨none, .range true (wordT "*") (wordT "z"), none, none, none⟩) ∧
    parse "[\\* TO z]" = parse "[* TO z]" :=
  ⟨by rfl, by rfl⟩

/-- C4 amended: `[a TO z]` parses to an inclusive range search with lower
bound `a` and upper bound `z`; `{a TO z}` parses to an exclusive one; in
`[* TO z]` the lower bound is the literal word `*` (not a structural
unbounded endpoint — the escaped `\*` yields the same tree). -/
theorem c4_amended :
    parse "[a TO z]" = .ok (.term ⟨none, .range true (wordT "a") (wordT "z"), none, none, none⟩) ∧
    parse "{a TO z}" = .ok (.term ⟨none, .range false (wordT "a") (wordT "z"), none, none, none⟩) ∧
    parse "[* TO z]" = .ok (.term ⟨none, .range true (wordT "*") (wordT "z"), none, none, none⟩) ∧
    parse "[\\* TO z]" = parse "[* TO z]" :=
  ⟨by rfl, by rfl, by rfl, by rfl⟩

/-- C7 counterexample: `\+` and `\-` are NOT accepted escape sequences — the
escape class of `valid_word`'s regex (line 24) contains
`! ( ) { } [ ] ^ " ~ * ? \ :` but not `+` or `-`, and the grammar's own
`failtests` (lines 277-278) list `\+blah` and `\-blah` as inputs that must
fail.  Both fail here. -/
theorem c7_counterexample :
    parse "\\+blah" = .error ⟨0⟩ ∧ parse "\\-blah" = .error ⟨0⟩ :=
  ⟨by rfl, by rfl⟩

/-- C2 counterexample: adjacency and explicit `OR` are not interchangeable
for every pair of well-formed terms.  The words `OR` and `NOT` each parse
alone as an ordinary term (the `keyword` rule is never attached), yet:
with `b = OR`, the adjacency input `a OR` does not parse at all — its second
word is swallowed as an `OR` operator with no right operand — while
`a OR OR` parses to `Or(a, OR)`; and with `a = NOT`, the adjacency input
`NOT b` parses to `Not(b)` — the first word is taken as the unary operator —
while `NOT OR b` parses to `Or(Not(OR), b)`: neither equals `Or(NOT, b)`. -/
theorem c2_counterexample :
    parse "OR" = .ok (wordE "OR") ∧
    parse "a OR" = .error ⟨2⟩ ∧
    parse "a OR OR" = .ok (.orE (wordE "a") (wordE "OR")) ∧
    parse "NOT" = .ok (wordE "NOT") ∧
    parse "NOT b" = .ok (.notE (wordE "b")) ∧
    parse "NOT OR b" = .ok (.orE (.notE (wordE "OR")) (wordE "b")) :=
  ⟨by rfl, by rfl, by rfl, by rfl, by rfl, by rfl⟩

/-- C8 counterexample: the fuzzy value is not confined to `[0, 1]` and the
proximity value is not confined to positive integers — `a~2.0` parses
successfully with fuzzy `2` (the grammar's own passing tests include
`term~2.0` and `term~1.1`), and `"a b"~0` parses with proximity `0`. -/
theorem c8_counterexample :
    parse "a~2.0" = .ok (fuzzyE "a" (mkRat 2 1)) ∧ ¬ (mkRat 2 1 ≤ 1) ∧
    parse "\"a b\"~0" = .ok (proxE "a b" 0) :=
  ⟨by rfl, by decide, by rfl⟩

/-- C6 (part): whenever the `expression` parser succeeds on a proper prefix
of the input and non-whitespace characters remain, `parse` fails with a
`GrammarError` at the offset of the first unconsumed non-whitespace
character; and the concrete input `field:term:with:colon` fails at offset 10,
the offset of its second colon. -/
theorem c6_trailing_input_rejected :
    (∀ (s : String) (e : QExpr) (st : PState),
      pExpression (fuelFor s) ⟨' ', s.data⟩ = some (e, st) →
      (skipWsSt st).rest ≠ [] →
      parse s = .error ⟨s.length - (skipWsSt st).rest.length⟩) ∧
    parse "field:term:with:colon" = .error ⟨10⟩ := by
  refine ⟨?_, by rfl⟩
  intro s e st h h2
  unfold parse
  rw [h]
  cases hr : (skipWsSt st).rest with
  | nil => exact absurd hr h2
  | cons c cs => simp [hr]

/-- Witness for `c6_trailing_input_rejected`: applied to the concrete input
`a )x`, whose expression prefix is the single word `a`. -/
theorem c6_witness :
    parse "a )x" = .error ⟨2⟩ :=
  c6_trailing_input_rejected.1 "a )x" (wordE "a") ⟨'a', [' ', ')', 'x']⟩ (by rfl) (by decide)

/-- C8 (amended): in every successfully parsed query, every term satisfies:
a fuzzy value only sits on a word body and is a nonnegative rational (the
grammar accepts any `\d+(\.\d+)?` there, not just values in `[0,1]`; when the
tilde carries no number the value defaults to `0.5`), a proximity value only
sits on a phrase body (any nonnegative integer, `0` included), and no term
carries both a fuzzy and a proximity value. -/
theorem c8_amended :
    (∀ s e, parse s = .ok e → invE e = true) ∧
    (∀ fld b fz px bo, invT (QTerm.mk fld b fz px bo) = true →
      (px ≠ none → bodyIsPhrase b = true) ∧
      (∀ q, fz = some q → bodyIsWord b = true ∧ 0 ≤ q) ∧
      ¬(fz ≠ none ∧ px ≠ none)) ∧
    parse "xunit~" = .ok (fuzzyE "xunit" (mkRat 1 2)) := by
  refine ⟨parse_inv, ?_, by rfl⟩
  intro fld b fz px bo h
  simp only [invT, triInv, Bool.and_eq_true] at h
  obtain ⟨⟨hpx, hfz⟩, -⟩ := h
  refine ⟨?_, ?_, ?_⟩
  · intro hne
    cases px with
    | none => exact absurd rfl hne
    | some k => exact hpx
  · intro q hq
    subst hq
    simp only [Bool.and_eq_true, decide_eq_true_eq] at hfz
    exact ⟨hfz.1, Rat.num_nonneg.1 hfz.2⟩
  · rintro ⟨hf, hp⟩
    cases fz with
    | none => exact hf rfl
    | some q =>
      cases px with
      | none => exact hp rfl
      | some k =>
        simp only [Bool.and_eq_true, decide_eq_true_eq] at hfz
        cases b <;> simp_all [bodyIsWord, bodyIsPhrase]

/-- Witness for `c8_amended`: the invariant instantiated on the parse of
`a~2.0 "b c"~3`, whose hypotheses are discharged by computation. -/
theorem c8_witness :
    invE (.orE (fuzzyE "a" (mkRat 2 1)) (proxE "b c" 3)) = true :=
  c8_amended.1 "a~2.0 \"b c\"~3" _ (by rfl)

/-- C3: `roam~` parses with the default fuzzy value `0.5`; `roam~0.8` parses
with fuzzy `0.8` (= 4/5 exactly); the quoted phrase `"jakarta apache"~10`
parses with proximity `10`; and a proximity value never attaches to a plain
word: in every parse result, any term with a word body has no proximity
(the invariant shows proximity only attaches to phrase bodies). -/
theorem c3_fuzzy_proximity :
    parse "roam~" = .ok (fuzzyE "roam" (mkRat 1 2)) ∧
    parse "roam~0.8" = .ok (fuzzyE "roam" (mkRat 4 5)) ∧
    parse "\"jakarta apache\"~10" = .ok (proxE "jakarta apache" 10) ∧
    (∀ s e, parse s = .ok e → invE e = true) ∧
    (∀ fld w fz px bo, invT (QTerm.mk fld (QBody.word w) fz px bo) = true → px = none) := by
  refine ⟨by rfl, by rfl, by rfl, parse_inv, ?_⟩
  intro fld w fz px bo h
  simp only [invT, triInv, Bool.and_eq_true] at h
  obtain ⟨⟨hpx, -⟩, -⟩ := h
  cases px with
  | none => rfl
  | some k => simp [bodyIsPhrase] at hpx

/-- Witness for `c3_fuzzy_proximity`: its universal part instantiated on the
parse of `roam~10` — the tilde-number after a plain word becomes a fuzzy
value, not a proximity. -/
theorem c3_witness :
    invE (fuzzyE "roam" (mkRat 10 1)) = true :=
  c3_fuzzy_proximity.2.2.2.1 "roam~10" _ (by rfl)

/-- C7 (amended): for every character of the escape class actually written in
the `valid_word` regex — `! ( ) { } [ ] ^ " ~ * ? \ :`, which does NOT
contain `+` or `-` — the two-character input `\c` parses as the one-character
literal word `c`. -/
theorem c7_amended (c : Char) (hc : escWordChar c = true) :
    parse (String.mk ['\\', c]) = .ok (.term ⟨none, .word [c], none, none, none⟩) := by
  have ht : validTok ['\\', c] = true := by
    simp [validTok, wordUnits, hc, show plainWordChar '\\' = false from by decide]
  have hkw : kwAt notKW ['\\', c] = false := by
    simp [kwAt, caselessPrefix]
  have hu : unescapeWord ['\\', c] = [c] := by
    by_cases hb : c = '\\'
    · subst hb
      rw [unescapeWord_bs_pair]
      rfl
    · rw [unescapeWord_esc_pair hb (esc_not_del hc)]
      rfl
  rw [parse_single_token ht (by rw [List.head?_cons]; decide)
    (by rw [List.head?_cons]; decide) hkw, hu]

/-- Witness for `c7_amended`: the escape sequence `\!` parses as the literal
one-character word `!`. -/
theorem c7_witness :
    parse (String.mk ['\\', '!']) = .ok (.term ⟨none, .word ['!'], none, none, none⟩) :=
  c7_amended '!' (by decide)

/-- C5 counterexample: under the spec's escape rule (whose reserved set
includes `+` and `-`), the escaped encoding of the word `a+b` is `a\+b`,
which the grammar REJECTS (it is one of the grammar's own failtests): parsing
the escaped encoding does not always yield the word back.  For the plain
word `a` the doubly-escaped encoding is `a` itself, so parsing it DOES yield
`a` back, contradicting the claim that the double-escape round-trip never
closes.  And escaping does not shield keyword-prefixed words either: the
word `NOT*` escapes (under the grammar's own escape class) to `NOT\*`, yet
parsing that yields `Not(word *)` — the `NOT` prefix is still consumed as
the unary operator, because `CaselessKeyword` accepts any non-identifier
boundary character, including a backslash. -/
theorem c5_counterexample :
    escWordSpec ['a', '+', 'b'] = ['a', '\\', '+', 'b'] ∧
    parse (String.mk (escWordSpec ['a', '+', 'b'])) = .error ⟨1⟩ ∧
    escWordSpec (escWordSpec ['a']) = ['a'] ∧
    parse (String.mk (escWordSpec (escWordSpec ['a']))) =
      .ok (.term ⟨none, .word ['a'], none, none, none⟩) ∧
    escWord ['N', 'O', 'T', '*'] = ['N', 'O', 'T', '\\', '*'] ∧
    parse (String.mk (escWord ['N', 'O', 'T', '*'])) =
      .ok (.notE (.term ⟨none, .word ['*'], none, none, none⟩)) :=
  ⟨by rfl, by rfl, by rfl, by rfl, by rfl, by rfl⟩

/-- C5 (amended): for every nonempty word `w` over the grammar's word
alphabet (plain word characters plus the escapable class of the regex, which
excludes `+` and `-`) such that

* `w` does not begin with `+` or `-` (a leading `+`/`-` is consumed as a
  required/prohibited modifier), and
* `w` does not match the `NOT` keyword at a keyword boundary — i.e. `w` does
  not start with case-insensitive `N`,`O`,`T` followed by nothing or by a
  non-identifier character; this excludes not only the bare word `NOT` but
  also words like `NOT*` or `NOT.x`, whose `NOT` prefix is consumed as the
  unary operator even when the remainder is escaped (`c5_counterexample`
  shows `escWord "NOT*" = "NOT\*"` parses to `Not(word *)`),

parsing the escaped encoding of `w` (each escapable character prefixed with
a backslash) yields exactly the word `w`; and whenever the escaping is not
trivial (`escWord w ≠ w`), parsing the doubly-escaped encoding yields the
singly-escaped text `escWord w`, not `w`: the unescape is applied exactly
once. -/
theorem c5_amended {w : List Char} (hw : wordAlpha w = true) (hne : w ≠ [])
    (h3 : w.head? ≠ some '+') (h4 : w.head? ≠ some '-') (h5 : kwAt notKW w = false) :
    parse (String.mk (escWord w)) = .ok (.term ⟨none, .word w, none, none, none⟩) ∧
    (escWord w ≠ w →
      parse (String.mk (escWord (escWord w))) =
        .ok (.term ⟨none, .word (escWord w), none, none, none⟩) ∧
      parse (String.mk (escWord (escWord w))) ≠
        .ok (.term ⟨none, .word w, none, none, none⟩)) := by
  have hkw1 : kwAt notKW (escWord w) = false := by
    rw [kwAt_escWord notKW (by decide) w hw]
    exact h5
  have h1 : parse (String.mk (escWord w)) =
      .ok (.term ⟨none, .word w, none, none, none⟩) := by
    rw [parse_single_token (escWord_validTok hw hne)
      (escWord_head_ne (by decide) h3) (escWord_head_ne (by decide) h4) hkw1,
      unescapeWord_escWord w hw]
  refine ⟨h1, ?_⟩
  intro hnt
  have hw2 : wordAlpha (escWord w) = true := escWord_alpha w hw
  have hkw2 : kwAt notKW (escWord (escWord w)) = false := by
    rw [kwAt_escWord notKW (by decide) (escWord w) hw2]
    exact hkw1
  have h2 : parse (String.mk (escWord (escWord w))) =
      .ok (.term ⟨none, .word (escWord w), none, none, none⟩) := by
    rw [parse_single_token (escWord_validTok hw2 (escWord_ne_nil hne))
      (escWord_head_ne (by decide) (escWord_head_ne (by decide) h3))
      (escWord_head_ne (by decide) (escWord_head_ne (by decide) h4)) hkw2,
      unescapeWord_escWord (escWord w) hw2]
  refine ⟨h2, ?_⟩
  rw [h2]
  intro hcontra
  apply hnt
  simpa using hcontra

/-- Witness for `c5_amended`: the word `c:` escapes to `c\:`, which parses
back to `c:`; its double escape `c\\\:` parses to `c\:`, not to `c:`. -/
theorem c5_witness :
    parse (String.mk (escWord ['c', ':'])) =
      .ok (.term ⟨none, .word ['c', ':'], none, none, none⟩) ∧
    parse (String.mk (escWord (escWord ['c', ':']))) ≠
      .ok (.term ⟨none, .word ['c', ':'], none, none, none⟩) := by
  have h := @c5_amended ['c', ':'] (by decide) (by decide) (by decide) (by decide) (by decide)
  exact ⟨h.1, (h.2 (by decide)).2⟩

/-- C2 (amended): for every pair of well-formed `valid_word` tokens `a` and
`b` such that

* neither token begins with `+` or `-` (a leading `+`/`-` is consumed as a
  required/prohibited modifier, not as part of the word),
* neither token matches the `NOT` keyword at a keyword boundary — i.e.
  neither starts with case-insensitive `N`,`O`,`T` followed by nothing or by
  a non-identifier character (such a token is consumed as the unary `NOT`
  operator), and
* `b` additionally matches neither the `OR` nor the `AND` keyword at such a
  boundary (such a token is consumed as a binary operator),

the adjacency input `a b` and the explicit input `a OR b` parse to the same
tree `Or(word a, word b)` — implicit adjacency joins under OR.  Every side
condition is necessary: `c2_counterexample` shows the two inputs disagree
when `b` is spelled `OR` and also when `a` is spelled `NOT`. -/
theorem c2_amended {a b : List Char}
    (ha : validTok a = true) (hb : validTok b = true)
    (ha3 : a.head? ≠ some '+') (ha4 : a.head? ≠ some '-') (ha5 : kwAt notKW a = false)
    (hb3 : b.head? ≠ some '+') (hb4 : b.head? ≠ some '-') (hb5 : kwAt notKW b = false)
    (hbOr : kwAt orKW b = false) (hbAnd : kwAt andKW b = false) :
    parse (String.mk (a ++ ' ' :: b)) =
      .ok (.orE (.term ⟨none, .word (unescapeWord a), none, none, none⟩)
                (.term ⟨none, .word (unescapeWord b), none, none, none⟩)) ∧
    parse (String.mk (a ++ ' ' :: 'O' :: 'R' :: ' ' :: b)) =
      .ok (.orE (.term ⟨none, .word (unescapeWord a), none, none, none⟩)
                (.term ⟨none, .word (unescapeWord b), none, none, none⟩)) := by
  constructor
  · unfold parse pExpression
    obtain ⟨m, hm⟩ : ∃ m, fuelFor (String.mk (a ++ ' ' :: b)) = m + 8 :=
      ⟨16 * (a ++ ' ' :: b).length + 56, by
        show 16 * (a ++ ' ' :: b).length + 64 = 16 * (a ++ ' ' :: b).length + 56 + 8
        omega⟩
    rw [show (String.mk (a ++ ' ' :: b)).data = a ++ ' ' :: b from rfl, hm,
      pOrLevel_adjacent m ' ' ha hb ha3 ha4 ha5 hb3 hb4 hb5 hbOr hbAnd]
    simp [skipWsSt, skipWs]
  · unfold parse pExpression
    obtain ⟨m, hm⟩ :
        ∃ m, fuelFor (String.mk (a ++ ' ' :: 'O' :: 'R' :: ' ' :: b)) = m + 8 :=
      ⟨16 * (a ++ ' ' :: 'O' :: 'R' :: ' ' :: b).length + 56, by
        show 16 * (a ++ ' ' :: 'O' :: 'R' :: ' ' :: b).length + 64 =
          16 * (a ++ ' ' :: 'O' :: 'R' :: ' ' :: b).length + 56 + 8
        omega⟩
    rw [show (String.mk (a ++ ' ' :: 'O' :: 'R' :: ' ' :: b)).data =
        a ++ ' ' :: 'O' :: 'R' :: ' ' :: b from rfl, hm,
      pOrLevel_explicit_or m ' ' ha hb ha3 ha4 ha5 hb3 hb4 hb5]
    simp [skipWsSt, skipWs]

/-- Witness for `c2_amended`: with `a` and `b` the literal one-letter words,
`a b` and `a OR b` both parse to `Or(a, b)`. -/
theorem c2_witness :
    parse "a b" =
      .ok (.orE (.term ⟨none, .word ['a'], none, none, none⟩)
                (.term ⟨none, .word ['b'], none, none, none⟩)) ∧
    parse "a OR b" =
      .ok (.orE (.term ⟨none, .word ['a'], none, none, none⟩)
                (.term ⟨none, .word ['b'], none, none, none⟩)) := by
  have h := @c2_amended ['a'] ['b'] (by decide) (by decide) (by decide) (by decide)
    (by decide) (by decide) (by decide) (by decide) (by decide) (by decide)
  exact ⟨h.1, h.2⟩

end Lucene
